import Mathlib

/-! sserver: the HTTP request parser of `main.go`

A shallow embedding of the request-parsing pipeline (`parseHTTPReq`, `parseHTTPVer`,
`calculateHeaderLen`, `parseHeaders`) together with the Go library functions it calls.

* A Go `[]byte` and a Go `string` are both sequences of bytes: `Bytes = List Nat`, each
  element standing for one byte (a natural number below 256). Every function below is
  total on `List Nat`, so a theorem stated for all `List Nat` holds in particular for all
  byte sequences; the concrete inputs are written as string literals, taken as their UTF-8
  bytes.
* A run-time panic (index out of range, slice bounds out of range) is an explicit outcome:
  fallible code returns `Except Panic _`.
* `net/url.Parse` is library code outside the repository; it is a parameter `urlParse` of
  the parser.
-/

namespace SServer

/-- One byte of a Go string or byte slice. -/
abbrev Byte := Nat

/-- Go `[]byte` and Go `string`. -/
abbrev Bytes := List Nat

/-- The UTF-8 bytes of a string literal, the way Go stores `"..."` and `[]byte("...")`. -/
def bytes (s : String) : Bytes :=
  s.toList.flatMap fun c => (String.utf8EncodeChar c).map UInt8.toNat

/-- The run-time faults the parser can raise. -/
inductive Panic where
  | indexOutOfRange
  | sliceBounds
  deriving DecidableEq, Repr

deriving instance DecidableEq for Except

/-! ## Go library functions -/

/-- `bytes.Index(s, sep)` / `strings.Index(s, sep)`: the position of the first occurrence of
`sep` in `s`; `none` stands for Go's `-1`. -/
def Index : Bytes → Bytes → Option Nat
  | [], sep => if sep.isPrefixOf [] then some 0 else none
  | c :: cs, sep => if sep.isPrefixOf (c :: cs) then some 0 else (Index cs sep).map (· + 1)

/-- The loop of `Count`: `skip` bytes of an occurrence already counted are passed over, so
occurrences do not overlap. -/
def countGo (sep : Bytes) : Nat → Bytes → Nat
  | _, [] => 0
  | k + 1, _ :: cs => countGo sep k cs
  | 0, c :: cs =>
    if sep.isPrefixOf (c :: cs) then countGo sep (sep.length - 1) cs + 1 else countGo sep 0 cs

/-- `bytes.Count(s, sep)` / `strings.Count(s, sep)` for a non-empty `sep`: the number of
non-overlapping occurrences of `sep` in `s`. -/
def Count (s sep : Bytes) : Nat := countGo sep 0 s

/-- The loop of `genSplit`: at most `n` times, cut `s` at the first occurrence of `sep`
(`m := Index(s, sep); a[i] = s[:m]; s = s[m+len(sep):]`); the rest is the last piece. -/
def splitLoop (sep : Bytes) : Nat → Bytes → List Bytes
  | 0, s => [s]
  | n + 1, s =>
    match Index s sep with
    | none => [s]
    | some m => s.take m :: splitLoop sep n (s.drop (m + sep.length))

/-- `genSplit(s, sep, 0, n)` of packages `bytes` and `strings` for a non-empty `sep` and
`n ≥ 0` pieces requested: `n = 0` gives nil, `n` is capped at `len(s)+1`, and the loop runs
`n-1` times. -/
def genSplit (s sep : Bytes) (n : Nat) : List Bytes :=
  if n = 0 then [] else splitLoop sep (min n (s.length + 1) - 1) s

/-- `bytes.Split(s, sep)` / `strings.Split(s, sep)`: `genSplit` with `n = Count(s, sep) + 1`. -/
def Split (s sep : Bytes) : List Bytes := genSplit s sep (Count s sep + 1)

/-- `strings.SplitN(s, sep, n)` for `n ≥ 0`. -/
def SplitN (s sep : Bytes) (n : Nat) : List Bytes := genSplit s sep n

/-- `strings.HasPrefix(s, p)`. -/
def HasPrefix (s p : Bytes) : Bool := p.isPrefixOf s

/-- `strconv.ParseUint(s, 10, 0)` on a 64-bit platform: `none` stands for a non-nil error
(empty input, a byte that is not a decimal digit, or a value above `2^64 - 1`). -/
def ParseUint (s : Bytes) : Option Nat :=
  if s = [] then none
  else s.foldl (fun acc c =>
    match acc with
    | none => none
    | some n =>
      if 48 ≤ c ∧ c ≤ 57 then
        (if n * 10 + (c - 48) < 2 ^ 64 then some (n * 10 + (c - 48)) else none)
      else none) (some 0)

/-- `utf8.RuneError`. -/
def RuneError : Nat := 0xFFFD

/-- `utf8.DecodeRuneInString(s)`: the first rune of `s` and its width in bytes; invalid or
truncated encodings give `(RuneError, 1)`, the empty string `(RuneError, 0)`. -/
def DecodeRune : Bytes → Nat × Nat
  | [] => (RuneError, 0)
  | s0 :: rest =>
    if s0 < 0x80 then (s0, 1)
    else if s0 < 0xC2 then (RuneError, 1)
    else if s0 < 0xE0 then
      match rest with
      | s1 :: _ =>
        if 0x80 ≤ s1 ∧ s1 ≤ 0xBF then (s0 % 32 * 64 + s1 % 64, 2) else (RuneError, 1)
      | [] => (RuneError, 1)
    else if s0 < 0xF0 then
      match rest with
      | s1 :: s2 :: _ =>
        if (if s0 = 0xE0 then 0xA0 else 0x80) ≤ s1 ∧ s1 ≤ (if s0 = 0xED then 0x9F else 0xBF) then
          (if 0x80 ≤ s2 ∧ s2 ≤ 0xBF then (s0 % 16 * 4096 + s1 % 64 * 64 + s2 % 64, 3)
           else (RuneError, 1))
        else (RuneError, 1)
      | _ => (RuneError, 1)
    else if s0 < 0xF5 then
      match rest with
      | s1 :: s2 :: s3 :: _ =>
        if (if s0 = 0xF0 then 0x90 else 0x80) ≤ s1 ∧ s1 ≤ (if s0 = 0xF4 then 0x8F else 0xBF) then
          (if 0x80 ≤ s2 ∧ s2 ≤ 0xBF then
            (if 0x80 ≤ s3 ∧ s3 ≤ 0xBF then
              (s0 % 8 * 262144 + s1 % 64 * 4096 + s2 % 64 * 64 + s3 % 64, 4)
             else (RuneError, 1))
           else (RuneError, 1))
        else (RuneError, 1)
      | _ => (RuneError, 1)
    else (RuneError, 1)

/-- `utf8.RuneStart(b)`: `b` is not a continuation byte. -/
def RuneStart (b : Byte) : Bool := b / 64 % 4 ≠ 2

/-- The backward scan of `DecodeLastRuneInString` over a string of length `e`: the start of
the candidate last rune, looked for among the last `UTFMax = 4` bytes. -/
def lastRuneStart (s : Bytes) : Nat :=
  let e := s.length
  if 2 ≤ e ∧ RuneStart (s.getD (e - 2) 0) then e - 2
  else if 3 ≤ e ∧ RuneStart (s.getD (e - 3) 0) then e - 3
  else if 4 ≤ e ∧ RuneStart (s.getD (e - 4) 0) then e - 4
  else e - 5

/-- `utf8.DecodeLastRuneInString(s)`: the last rune of `s` and its width. -/
def DecodeLastRune (s : Bytes) : Nat × Nat :=
  match s.getLast? with
  | none => (RuneError, 0)
  | some r =>
    if r < 0x80 then (r, 1)
    else
      let start := lastRuneStart s
      let d := DecodeRune (s.drop start)
      if start + d.2 ≠ s.length then (RuneError, 1) else d

/-- `unicode.IsSpace(r)`. -/
def IsSpace (r : Nat) : Bool :=
  if r ≤ 0xFF then
    r = 0x09 ∨ r = 0x0A ∨ r = 0x0B ∨ r = 0x0C ∨ r = 0x0D ∨ r = 0x20 ∨ r = 0x85 ∨ r = 0xA0
  else
    r = 0x1680 ∨ (0x2000 ≤ r ∧ r ≤ 0x200A) ∨ r = 0x2028 ∨ r = 0x2029 ∨ r = 0x202F ∨
      r = 0x205F ∨ r = 0x3000

/-- The table `asciiSpace` of package `strings`. -/
def asciiSpace (c : Byte) : Bool :=
  c = 0x09 ∨ c = 0x0A ∨ c = 0x0B ∨ c = 0x0C ∨ c = 0x0D ∨ c = 0x20

/-- The loop of `strings.TrimLeftFunc(s, unicode.IsSpace)`: runes are decoded from the left
(`skip` counts the remaining bytes of the rune being passed over) until one is not a space. -/
def trimLeftGo : Nat → Bytes → Bytes
  | _, [] => []
  | k + 1, _ :: cs => trimLeftGo k cs
  | 0, c :: cs =>
    if IsSpace (DecodeRune (c :: cs)).1 then trimLeftGo ((DecodeRune (c :: cs)).2 - 1) cs
    else c :: cs

/-- `strings.TrimLeftFunc(s, unicode.IsSpace)`. -/
def TrimLeftSpace (s : Bytes) : Bytes := trimLeftGo 0 s

/-- The loop of `lastIndexFunc(s, unicode.IsSpace, false)` on the reversed string: runes are
decoded from the right until one is not a space; the result is the index where that rune
starts, `none` standing for `-1`. -/
def lastIndexGo : Nat → Bytes → Option Nat
  | _, [] => none
  | k + 1, _ :: cs => lastIndexGo k cs
  | 0, c :: cs =>
    if IsSpace (DecodeLastRune (c :: cs).reverse).1 then
      lastIndexGo ((DecodeLastRune (c :: cs).reverse).2 - 1) cs
    else some ((c :: cs).length - (DecodeLastRune (c :: cs).reverse).2)

/-- `strings.TrimRightFunc(s, unicode.IsSpace)`. -/
def TrimRightSpace (s : Bytes) : Bytes :=
  match lastIndexGo 0 s.reverse with
  | none => []
  | some i =>
    if 0x80 ≤ s.getD i 0 then s.take (i + (DecodeRune (s.drop i)).2) else s.take (i + 1)

/-- The second loop of `strings.TrimSpace`, on the reversed `s[start:stop]`: ASCII spaces are
dropped from the end; a non-ASCII byte hands over to `TrimRightFunc`. -/
def trimStopGo : Bytes → Bytes
  | [] => []
  | c :: cs =>
    if 0x80 ≤ c then TrimRightSpace (c :: cs).reverse
    else if asciiSpace c then trimStopGo cs
    else (c :: cs).reverse

/-- `strings.TrimSpace(s)`: ASCII spaces are dropped from the start, a non-ASCII byte hands
over to `TrimFunc(s[start:], unicode.IsSpace)`; then the same from the end. -/
def TrimSpace : Bytes → Bytes
  | [] => []
  | c :: cs =>
    if 0x80 ≤ c then TrimRightSpace (TrimLeftSpace (c :: cs))
    else if asciiSpace c then TrimSpace cs
    else trimStopGo (c :: cs).reverse

/-! ## `main.go` -/

/-- `parseHTTPVer`: the version token to `(major, minor, ok)`. The slices `vers[5:6]` and
`vers[7:8]` are taken after the length test, so they are in range. -/
def parseHTTPVer (vers : Bytes) : Int × Int × Bool :=
  if vers = bytes "HTTP/1.1" then (1, 1, true)
  else if vers = bytes "HTTP/1.0" then (1, 0, true)
  else if !HasPrefix vers (bytes "HTTP/") then (0, 0, false)
  else if vers.length ≠ (bytes "HTTP/X.Y").length then (0, 0, false)
  else
    match ParseUint ((vers.take 6).drop 5) with
    | none => (0, 0, false)
    | some maj =>
      match ParseUint ((vers.take 8).drop 7) with
      | none => (0, 0, false)
      | some min => (Int.ofNat maj, Int.ofNat min, true)

/-- A Go `error` value, identified with its message. -/
abbrev GoError := String

/-- Go `map[string][]string`: the entries, with pairwise different keys. -/
abbrev HeaderMap := List (Bytes × List Bytes)

/-- The map assignment `m[k] = v`: the entry of `k`, if any, is replaced. -/
def HeaderMap.set (m : HeaderMap) (k : Bytes) (v : List Bytes) : HeaderMap :=
  (k, v) :: m.filter fun e => decide (e.1 ≠ k)

/-- The map lookup `m[k]`, `none` when `k` is not a key. -/
def HeaderMap.get (m : HeaderMap) (k : Bytes) : Option (List Bytes) :=
  (m.find? fun e => decide (e.1 = k)).map Prod.snd

/-- The keys of the map. -/
def HeaderMap.keys (m : HeaderMap) : List Bytes := m.map Prod.fst

/-- The index expression `xs[i]`, which panics when `i` is not below `len(xs)`. -/
def indexAt {α : Type} (xs : List α) (i : Nat) : Except Panic α :=
  match xs[i]? with
  | some x => .ok x
  | none => .error .indexOutOfRange

/-- The slice expression `xs[lo:hi]` on a slice whose capacity is its length (as for the
result of `bytes.Split`); it panics unless `0 ≤ lo ≤ hi ≤ len(xs)`. -/
def sliceFromTo {α : Type} (xs : List α) (lo hi : Int) : Except Panic (List α) :=
  if 0 ≤ lo ∧ lo ≤ hi ∧ hi ≤ (xs.length : Int) then .ok ((xs.take hi.toNat).drop lo.toNat)
  else .error .sliceBounds

/-- The `Request` struct; a nil `URL` pointer and a nil `Header` map are `none`. -/
structure Request (U : Type) where
  Method : Bytes
  URL : Option U
  Proto : Bytes
  ProtoMin : Int
  ProtoMaj : Int
  Header : Option HeaderMap
  deriving DecidableEq, Repr

/-- The zero value `Request{}`. -/
def Request.zero (U : Type) : Request U :=
  { Method := [], URL := none, Proto := [], ProtoMin := 0, ProtoMaj := 0, Header := none }

/-- The package variable `delim = []byte("\r\n")`. -/
def delim : Bytes := bytes "\r\n"

/-- The loop of `calculateHeaderLen` from index `i` on. -/
def calculateHeaderLenFrom : Nat → List Bytes → Int
  | _, [] => -1
  | i, line :: rest => if line = [] then (i : Int) + 1 else calculateHeaderLenFrom (i + 1) rest

/-- `calculateHeaderLen`: one more than the index of the first empty line, or `-1`. -/
def calculateHeaderLen (remainingRequest : List Bytes) : Int :=
  calculateHeaderLenFrom 0 remainingRequest

/-- The loop of `parseHeaders` over the remaining items, `m` being the map built so far. -/
def parseHeadersLoop : List Bytes → HeaderMap → Except Panic HeaderMap
  | [], m => .ok m
  | item :: rest, m =>
    let splits := SplitN item (bytes ":") 2
    match indexAt splits 0 with
    | .error p => .error p
    | .ok k =>
      match indexAt splits 1 with
      | .error p => .error p
      | .ok v =>
        parseHeadersLoop rest (m.set k ((Split (TrimSpace v) (bytes ",")).map TrimSpace))

/-- `parseHeaders`. -/
def parseHeaders (h : List Bytes) : Except Panic HeaderMap := parseHeadersLoop h []

/-- `parseHTTPReq`, with `url.Parse` as the parameter `urlParse`. The result is the returned
pair `(*Request, error)`, or the panic the call ends in. -/
def parseHTTPReq {U : Type} (urlParse : Bytes → Except GoError U) (req : Bytes) :
    Except Panic (Option (Request U) × Option GoError) :=
  let request := Request.zero U
  let space := bytes " "
  let splits := Split req delim
  match indexAt splits 0 with
  | .error p => .error p
  | .ok first =>
  let ln1 := Split first space
  match indexAt ln1 0 with
  | .error p => .error p
  | .ok method =>
  let request := { request with Method := method }
  match indexAt ln1 1 with
  | .error p => .error p
  | .ok uri =>
  match urlParse uri with
  | .error err => .ok (none, some err)
  | .ok u =>
  let request := { request with URL := some u }
  match indexAt ln1 2 with
  | .error p => .error p
  | .ok proto =>
  let request := { request with Proto := proto }
  match parseHTTPVer request.Proto with
  | (_, _, false) => .ok (none, some "invalid HTTP version string")
  | (maj, minV, true) =>
  let request := { request with ProtoMaj := maj, ProtoMin := minV }
  match sliceFromTo splits 1 splits.length with
  | .error p => .error p
  | .ok ln2 =>
  let headerLen := calculateHeaderLen ln2
  match sliceFromTo splits 1 headerLen with
  | .error p => .error p
  | .ok incomingHeaders =>
  match parseHeaders incomingHeaders with
  | .error p => .error p
  | .ok headers =>
  let request := { request with Header := some headers }
  match sliceFromTo splits headerLen splits.length with
  | .error p => .error p
  | .ok _ => .ok (some request, none)

/-! ## An instance of the URI parser for concrete buffers -/

/-- The parts of a `url.URL` that an origin-form target fills. -/
structure OriginURL where
  Path : Bytes
  RawQuery : Bytes
  deriving DecidableEq, Repr

/-- The bytes `A-Z a-z 0-9 / ? = & . _ ~ -`. -/
def plainTargetByte (c : Byte) : Bool :=
  (65 ≤ c ∧ c ≤ 90) ∨ (97 ≤ c ∧ c ≤ 122) ∨ (48 ≤ c ∧ c ≤ 57) ∨ c = 47 ∨ c = 63 ∨ c = 61 ∨
    c = 38 ∨ c = 46 ∨ c = 95 ∨ c = 126 ∨ c = 45

/-- An instance of the parameter `urlParse`, used to run the parser on concrete buffers. On
a target that starts with one `/` and is made of the bytes of `plainTargetByte` it answers as
`url.Parse` does there: the text before the first `?` is the path, the text after it the raw
query. Every other target is an error of this instance. -/
def urlParseOrigin (t : Bytes) : Except GoError OriginURL :=
  if t.head? = some 47 ∧ (t.drop 1).head? ≠ some 47 ∧ t.all plainTargetByte then
    .ok { Path := t.takeWhile (· ≠ 63), RawQuery := (t.dropWhile (· ≠ 63)).drop 1 }
  else .error "parse: target outside the origin-form instance"

/-! ## The notions of the specification -/

/-- The name of a header line in the words of the specification: the text before its first
colon. -/
def headerName (line : Bytes) : Bytes := line.takeWhile fun c => decide (c ≠ 58)

/-- The raw value of a header line in the words of the specification: the text after its
first colon. -/
def headerRawValue (line : Bytes) : Bytes := (line.dropWhile fun c => decide (c ≠ 58)).drop 1

/-- The value list of a header line in the words of the specification: the raw value is
trimmed and split on commas, and each fragment is trimmed. -/
def headerValues (line : Bytes) : List Bytes :=
  (Split (TrimSpace (headerRawValue line)) (bytes ",")).map TrimSpace

/-- A request line written from three fields with single spaces between them. -/
def requestLine (M T V : Bytes) : Bytes := M ++ [32] ++ T ++ [32] ++ V

/-- A message: the request line `R`, the header lines `hs` and an empty line, each followed
by CR LF, and then the bytes `body`. -/
def message (R : Bytes) (hs : List Bytes) (body : Bytes) : Bytes :=
  R ++ delim ++ hs.flatMap (fun h => h ++ delim) ++ delim ++ body

/-- The map the specification describes for header lines `hs` added to the map `m`: each
line in turn assigns its value list to its name. -/
def headersOf (hs : List Bytes) (m : HeaderMap) : HeaderMap :=
  hs.foldl (fun acc h => acc.set (headerName h) (headerValues h)) m

/-- Lines joined by CR LF. -/
def joinLines : List Bytes → Bytes
  | [] => []
  | [l] => l
  | l :: m :: rest => l ++ delim ++ joinLines (m :: rest)

/-- The text starts with white space: its first rune, as `utf8.DecodeRuneInString` reads it,
is a `unicode.IsSpace` rune. -/
def leadingSpace (s : Bytes) : Bool := !s.isEmpty && IsSpace (DecodeRune s).1

/-- The text ends with white space: its last rune, as `utf8.DecodeLastRuneInString` reads
it, is a `unicode.IsSpace` rune. -/
def trailingSpace (s : Bytes) : Bool := !s.isEmpty && IsSpace (DecodeLastRune s).1

/-! ## The connection handler and the listener loop of `main.go` -/

/-- The method calls made on a connection. -/
inductive ConnEvent where
  | read (len : Nat)
  | write (data : Bytes)
  | remoteAddr
  | close
  deriving DecidableEq, Repr

/-- A `net.Conn` as the handler uses it: `pending` is what the peer delivers to the next
`Read`, `writeResult` is the answer `(l, err != nil)` of a `Write`, and `events` are the
calls made on the connection so far, in order. -/
structure Conn where
  pending : Bytes
  writeResult : Bytes → Nat × Bool
  events : List ConnEvent

/-- The call `c.Read(buf)` with `len(buf) = len`: at most `len` bytes are delivered. -/
def Conn.Read (c : Conn) (len : Nat) : Bytes × Conn :=
  (c.pending.take len,
    { c with pending := c.pending.drop len, events := c.events ++ [ConnEvent.read len] })

/-- The call `c.Write(data)`, with its results `(l, err != nil)`. -/
def Conn.Write (c : Conn) (data : Bytes) : (Nat × Bool) × Conn :=
  (c.writeResult data, { c with events := c.events ++ [ConnEvent.write data] })

/-- The call `c.RemoteAddr()`. -/
def Conn.RemoteAddr (c : Conn) : Conn :=
  { c with events := c.events ++ [ConnEvent.remoteAddr] }

/-- The call `c.Close()`. -/
def Conn.Close (c : Conn) : Conn :=
  { c with events := c.events ++ [ConnEvent.close] }

/-- `readReq`: one `Read` into a buffer of 4096 bytes, cut to the bytes read. -/
def readReq (c : Conn) : Bytes × Conn :=
  let bLen := 4096
  let buf : Bytes := List.replicate bLen 0
  let rd := c.Read bLen
  let n := rd.1.length
  let buf := rd.1 ++ buf.drop n
  (if n ≤ bLen then buf.take n else buf, rd.2)

/-- The constant `msg` of `handleConn`. -/
def msg : Bytes := bytes "HTTP/1.1 200 OK\r\n\r\nPong\r\n"

/-- `handleConn`: the connection after the call, and the panic the call ends in, if any.
The deferred `conn.Close()` runs when the function returns and when it panics. The calls of
`slog` are left out, except for the `conn.RemoteAddr()` among their arguments. -/
def handleConn {U : Type} (urlParse : Bytes → Except GoError U) (conn : Conn) :
    Conn × Option Panic :=
  let rd := readReq conn
  match parseHTTPReq urlParse rd.1 with
  | .error p => (rd.2.Close, some p)
  | .ok _ =>
    let wr := rd.2.Write msg
    let conn := if wr.1.2 then wr.2.RemoteAddr else wr.2
    let conn := conn.RemoteAddr
    (conn.Close, none)

/-- The outcome of one `ln.Accept()`: a connection and a nil error, or a non-nil error, with
which the listener returns the nil connection. -/
inductive Accepted where
  | conn (c : Conn)
  | failed

/-- The faults that end the loop of `main`. -/
inductive Fault where
  | nilDereference
  | handler (p : Panic)
  deriving DecidableEq, Repr

/-- The `for` loop of `main`, run over the outcomes of the successive calls of
`ln.Accept()`: the connections handled, in order, and the fault the loop ends in, if any.
On a failed `Accept` the argument `conn.RemoteAddr()` of `slog.Error` is a method call on
the nil connection. -/
def mainLoop {U : Type} (urlParse : Bytes → Except GoError U) :
    List Accepted → List Conn × Option Fault
  | [] => ([], none)
  | Accepted.failed :: _ => ([], some Fault.nilDereference)
  | Accepted.conn c :: rest =>
    match handleConn urlParse c.RemoteAddr with
    | (c1, some p) => ([c1], some (Fault.handler p))
    | (c1, none) => (c1 :: (mainLoop urlParse rest).1, (mainLoop urlParse rest).2)

/-! ## Lemmas on the library functions -/

theorem delim_eq : delim = [13, 10] := by decide

theorem bytes_space : bytes " " = [32] := by decide

theorem bytes_colon : bytes ":" = [58] := by decide

theorem bytes_comma : bytes "," = [44] := by decide

/-- An occurrence found by `Index` cuts the string into the text before it, the separator
and the text after it. -/
theorem Index_some_split (sep : Bytes) :
    ∀ (s : Bytes) (m : Nat), Index s sep = some m →
      s = s.take m ++ sep ++ s.drop (m + sep.length) := by
  intro s
  induction s with
  | nil =>
    intro m h
    simp only [Index] at h
    split at h
    · rename_i hp
      have : sep = [] := by
        cases sep with
        | nil => rfl
        | cons a t => simp [List.isPrefixOf] at hp
      subst this
      simp
    · cases h
  | cons c cs ih =>
    intro m h
    simp only [Index] at h
    split at h
    · rename_i hp
      cases h
      have hp2 : sep <+: c :: cs := List.isPrefixOf_iff_prefix.mp hp
      obtain ⟨t, ht⟩ := hp2
      rw [← ht]
      simp
    · cases hI : Index cs sep with
      | none => rw [hI] at h; cases h
      | some m1 =>
        rw [hI] at h
        simp only [Option.map_some'] at h
        cases h
        have := ih m1 hI
        simp only [List.take_succ_cons, List.cons_append]
        rw [Nat.add_right_comm, List.drop_succ_cons]
        exact congrArg (c :: ·) this

theorem countGo_skip (sep : Bytes) :
    ∀ (s : Bytes) (k : Nat), countGo sep k s = countGo sep 0 (s.drop k) := by
  intro s
  induction s with
  | nil => intro k; cases k <;> simp [countGo]
  | cons c cs ih =>
    intro k
    cases k with
    | zero => simp
    | succ k => simp only [countGo, List.drop_succ_cons]; exact ih k

theorem countGo_le (sep : Bytes) : ∀ (s : Bytes) (k : Nat), countGo sep k s ≤ s.length := by
  intro s
  induction s with
  | nil => intro k; cases k <;> simp [countGo]
  | cons c cs ih =>
    intro k
    cases k with
    | zero =>
      simp only [countGo]
      split
      · have := ih (sep.length - 1); simp only [List.length_cons]; omega
      · have := ih 0; simp only [List.length_cons]; omega
    | succ k =>
      simp only [countGo, List.length_cons]
      have := ih k
      omega

theorem Count_of_Index_none (sep : Bytes) :
    ∀ s : Bytes, Index s sep = none → Count s sep = 0 := by
  intro s
  induction s with
  | nil => intro _; simp [Count, countGo]
  | cons c cs ih =>
    intro h
    simp only [Index] at h
    split at h
    · cases h
    · rename_i hp
      simp only [Option.map_eq_none'] at h
      have := ih h
      simp only [Count] at this
      simp [Count, countGo, hp, this]

theorem Count_of_Index_some (sep : Bytes) (hsep : sep ≠ []) :
    ∀ (s : Bytes) (m : Nat), Index s sep = some m →
      Count s sep = Count (s.drop (m + sep.length)) sep + 1 := by
  intro s
  induction s with
  | nil =>
    intro m h
    simp only [Index] at h
    split at h
    · rename_i hp
      cases sep with
      | nil => exact absurd rfl hsep
      | cons a t => simp [List.isPrefixOf] at hp
    · cases h
  | cons c cs ih =>
    intro m h
    simp only [Index] at h
    split at h
    · rename_i hp
      cases h
      have hlen : 0 < sep.length := List.length_pos.mpr hsep
      simp only [Count, countGo, hp, if_true, Nat.zero_add]
      rw [countGo_skip]
      have : sep.length = (sep.length - 1) + 1 := by omega
      conv_rhs => rw [this, List.drop_succ_cons]
    · rename_i hp
      cases hI : Index cs sep with
      | none => rw [hI] at h; cases h
      | some m1 =>
        rw [hI] at h
        simp only [Option.map_some'] at h
        cases h
        have := ih m1 hI
        simp only [Count] at this
        simp only [Count, countGo, hp]
        rw [Nat.add_right_comm, List.drop_succ_cons]
        simpa using this

theorem Split_eq_splitLoop (s sep : Bytes) : Split s sep = splitLoop sep (Count s sep) s := by
  have h := countGo_le sep s 0
  simp only [Split, genSplit, Count]
  have : min (countGo sep 0 s + 1) (s.length + 1) - 1 = countGo sep 0 s := by omega
  simp [this]

/-- When the separator does not occur, `Split` returns the string as its only piece. -/
theorem Split_of_Index_none (s sep : Bytes) (h : Index s sep = none) : Split s sep = [s] := by
  rw [Split_eq_splitLoop, Count_of_Index_none sep s h]
  simp [splitLoop]

/-- When the separator occurs, `Split` cuts at its first occurrence and splits the rest. -/
theorem Split_of_Index_some (s sep : Bytes) (hsep : sep ≠ []) (m : Nat)
    (h : Index s sep = some m) :
    Split s sep = s.take m :: Split (s.drop (m + sep.length)) sep := by
  rw [Split_eq_splitLoop, Count_of_Index_some sep hsep s m h, Split_eq_splitLoop]
  simp [splitLoop, h]

theorem Split_append_of_Index (l sep rest : Bytes) (hsep : sep ≠ [])
    (h : Index (l ++ sep ++ rest) sep = some l.length) :
    Split (l ++ sep ++ rest) sep = l :: Split rest sep := by
  rw [Split_of_Index_some _ _ hsep _ h]
  simp [List.append_assoc, List.take_left', List.drop_append]

/-- In a line without CR LF followed by CR LF, the first CR LF is the one that follows. -/
theorem Index_delim_append (rest : Bytes) :
    ∀ l : Bytes, Index l delim = none → Index (l ++ delim ++ rest) delim = some l.length := by
  rw [delim_eq]
  intro l
  induction l with
  | nil => intro _; simp [Index, List.isPrefixOf]
  | cons c cs ih =>
    intro h
    simp only [Index] at h
    split at h
    · cases h
    · rename_i hp
      simp only [Option.map_eq_none'] at h
      have hrec := ih h
      have hp2 : List.isPrefixOf [13, 10] (c :: cs ++ [13, 10] ++ rest) = false := by
        cases cs with
        | nil => simp [List.isPrefixOf]
        | cons d t => simpa [List.isPrefixOf] using hp
      simp only [List.cons_append, List.append_assoc, List.nil_append] at hp2 hrec ⊢
      rw [Index, hp2, hrec]
      rfl

theorem Index_byte_append (b : Byte) (rest : Bytes) :
    ∀ l : Bytes, b ∉ l → Index (l ++ [b] ++ rest) [b] = some l.length := by
  intro l
  induction l with
  | nil => intro _; simp [Index, List.isPrefixOf]
  | cons c cs ih =>
    intro h
    simp only [List.mem_cons, not_or] at h
    have hrec := ih h.2
    have hbc : ¬ b = c := h.1
    simp only [List.cons_append, List.append_assoc, List.nil_append] at hrec ⊢
    simp [Index, List.isPrefixOf, hbc, hrec]

theorem Index_byte_none (b : Byte) : ∀ s : Bytes, b ∉ s → Index s [b] = none := by
  intro s
  induction s with
  | nil => intro _; simp [Index, List.isPrefixOf]
  | cons c cs ih =>
    intro h
    simp only [List.mem_cons, not_or] at h
    have hbc : ¬ b = c := h.1
    simp [Index, List.isPrefixOf, hbc, ih h.2]

theorem Index_byte_takeWhile (b : Byte) :
    ∀ s : Bytes, b ∈ s → Index s [b] = some (s.takeWhile fun c => decide (c ≠ b)).length := by
  intro s
  induction s with
  | nil => intro h; cases h
  | cons c cs ih =>
    intro h
    by_cases hcb : c = b
    · subst hcb
      simp [Index, List.isPrefixOf, List.takeWhile]
    · have hmem : b ∈ cs := by
        rcases List.mem_cons.mp h with h1 | h1
        · exact absurd h1.symm hcb
        · exact h1
      have hbc : ¬ b = c := fun e => hcb e.symm
      simp [Index, List.isPrefixOf, hbc, ih hmem, List.takeWhile, hcb]

/-- The three fields of a request line written with single spaces. -/
theorem Split_three_fields (M T V : Bytes) (hM : 32 ∉ M) (hT : 32 ∉ T) (hV : 32 ∉ V) :
    Split (M ++ [32] ++ T ++ [32] ++ V) (bytes " ") = [M, T, V] := by
  rw [bytes_space]
  have e : M ++ [32] ++ T ++ [32] ++ V = M ++ [32] ++ (T ++ [32] ++ V) := by simp
  rw [e, Split_append_of_Index M [32] _ (by simp) (Index_byte_append 32 _ M hM),
    Split_append_of_Index T [32] _ (by simp) (Index_byte_append 32 _ T hT),
    Split_of_Index_none V [32] (Index_byte_none 32 V hV)]

/-- Lines without CR LF, each followed by CR LF, are split back into these lines. -/
theorem Split_lines (rest : Bytes) :
    ∀ hs : List Bytes, (∀ h ∈ hs, Index h delim = none) →
      Split (hs.flatMap (fun h => h ++ delim) ++ rest) delim = hs ++ Split rest delim := by
  intro hs
  induction hs with
  | nil => intro _; simp
  | cons h t ih =>
    intro hall
    have h1 : Index h delim = none := hall h (List.mem_cons_self _ _)
    have h2 := ih fun x hx => hall x (List.mem_cons_of_mem _ hx)
    have e : (h :: t).flatMap (fun h => h ++ delim) ++ rest
        = h ++ delim ++ (t.flatMap (fun h => h ++ delim) ++ rest) := by simp
    rw [e, Split_append_of_Index h delim _ (by rw [delim_eq]; simp)
      (Index_delim_append _ h h1), h2]
    simp

/-- The lines of a buffer made of a request line, header lines and an empty line, each
followed by CR LF, and then a body. -/
theorem Split_message (R : Bytes) (hs : List Bytes) (body : Bytes)
    (hR : Index R delim = none) (hhs : ∀ h ∈ hs, Index h delim = none) :
    Split (R ++ delim ++ hs.flatMap (fun h => h ++ delim) ++ delim ++ body) delim
      = R :: (hs ++ [] :: Split body delim) := by
  have e : R ++ delim ++ hs.flatMap (fun h => h ++ delim) ++ delim ++ body
      = R ++ delim ++ (hs.flatMap (fun h => h ++ delim) ++ ([] ++ delim ++ body)) := by simp
  have hd : delim ≠ [] := by rw [delim_eq]; simp
  have h0 : Index ([] : Bytes) delim = none := by rw [delim_eq]; decide
  rw [e, Split_append_of_Index R delim _ hd (Index_delim_append _ R hR), Split_lines _ hs hhs,
    Split_append_of_Index [] delim _ hd (Index_delim_append _ [] h0)]

theorem SplitN_two (s sep : Bytes) (hsep : sep ≠ []) :
    SplitN s sep 2 =
      match Index s sep with
      | none => [s]
      | some m => [s.take m, s.drop (m + sep.length)] := by
  cases s with
  | nil =>
    have : Index [] sep = none := by
      cases sep with
      | nil => exact absurd rfl hsep
      | cons a t => simp [Index, List.isPrefixOf]
    simp [SplitN, genSplit, splitLoop, this]
  | cons c cs =>
    have : min 2 ((c :: cs).length + 1) - 1 = 1 := by simp only [List.length_cons]; omega
    simp only [SplitN, genSplit, this]
    simp only [splitLoop]
    cases Index (c :: cs) sep <;> simp

/-- A line with a colon is cut at its first colon. -/
theorem SplitN_colon (h : Bytes) (hc : 58 ∈ h) :
    SplitN h (bytes ":") 2
      = [h.takeWhile fun c => decide (c ≠ 58), (h.dropWhile fun c => decide (c ≠ 58)).drop 1] := by
  rw [bytes_colon, SplitN_two h [58] (by simp), Index_byte_takeWhile 58 h hc]
  have e := List.takeWhile_append_dropWhile (fun c => decide (c ≠ 58)) h
  have ht : h.take (h.takeWhile fun c => decide (c ≠ 58)).length
      = h.takeWhile fun c => decide (c ≠ 58) := by
    have : List.take (h.takeWhile fun c => decide (c ≠ 58)).length
        ((h.takeWhile fun c => decide (c ≠ 58)) ++ h.dropWhile fun c => decide (c ≠ 58))
        = h.takeWhile fun c => decide (c ≠ 58) := List.take_left' rfl
    rwa [e] at this
  have hd : h.drop (h.takeWhile fun c => decide (c ≠ 58)).length
      = h.dropWhile fun c => decide (c ≠ 58) := by
    have : List.drop (h.takeWhile fun c => decide (c ≠ 58)).length
        ((h.takeWhile fun c => decide (c ≠ 58)) ++ h.dropWhile fun c => decide (c ≠ 58))
        = h.dropWhile fun c => decide (c ≠ 58) := List.drop_left' rfl
    rwa [e] at this
  show [h.take _, h.drop (_ + [58].length)] = _
  rw [ht, List.length_singleton, ← hd, List.drop_drop, Nat.add_comm]

/-- A line without a colon is returned whole. -/
theorem SplitN_no_colon (h : Bytes) (hc : 58 ∉ h) : SplitN h (bytes ":") 2 = [h] := by
  rw [bytes_colon, SplitN_two h [58] (by simp), Index_byte_none 58 h hc]

/-! ## Lemmas on the header map -/

theorem find_filter_other (k j : Bytes) (hkj : ¬ k = j) :
    ∀ m : HeaderMap,
      (m.filter fun e => decide (e.1 ≠ k)).find? (fun e => decide (e.1 = j))
        = m.find? fun e => decide (e.1 = j) := by
  intro m
  induction m with
  | nil => rfl
  | cons e t ih =>
    rw [List.filter_cons]
    by_cases hek : e.1 = k
    · have hej : ¬ e.1 = j := fun h => hkj (hek.symm.trans h)
      rw [if_neg (by simpa using hek), ih, List.find?_cons_of_neg _ (by simpa using hej)]
    · rw [if_pos (by simpa using hek), List.find?_cons, List.find?_cons, ih]

theorem HeaderMap.get_set (m : HeaderMap) (k j : Bytes) (v : List Bytes) :
    (m.set k v).get j = if j = k then some v else m.get j := by
  by_cases hjk : j = k
  · subst hjk
    simp [HeaderMap.set, HeaderMap.get]
  · have hkj : ¬ k = j := fun e => hjk e.symm
    simp only [HeaderMap.set, HeaderMap.get, if_neg hjk]
    rw [List.find?_cons_of_neg _ (by simpa using hkj), find_filter_other k j hkj]

theorem HeaderMap.mem_keys_iff (m : HeaderMap) (k : Bytes) :
    k ∈ m.keys ↔ ∃ v, m.get k = some v := by
  induction m with
  | nil => simp [HeaderMap.keys, HeaderMap.get]
  | cons e t ih =>
    by_cases hek : e.1 = k
    · simp [HeaderMap.keys, HeaderMap.get, List.find?, hek]
    · have hke : ¬ k = e.1 := fun h => hek h.symm
      simp only [HeaderMap.keys, HeaderMap.get] at ih
      simp [HeaderMap.keys, HeaderMap.get, List.find?, hek, hke]
      simpa using ih

theorem headersOf_get_of_not_named (k : Bytes) :
    ∀ (hs : List Bytes) (m : HeaderMap), (∀ h ∈ hs, headerName h ≠ k) →
      (headersOf hs m).get k = m.get k := by
  intro hs
  induction hs with
  | nil => intro m _; rfl
  | cons h t ih =>
    intro m hall
    have h1 : headerName h ≠ k := hall h (List.mem_cons_self _ _)
    have h2 := ih (m.set (headerName h) (headerValues h))
      fun x hx => hall x (List.mem_cons_of_mem _ hx)
    simp only [headersOf, List.foldl_cons] at h2 ⊢
    rw [h2, HeaderMap.get_set, if_neg (fun e => h1 e.symm)]

/-- The last line carrying a name decides the value list of that name. -/
theorem headersOf_get_last (pre post : List Bytes) (h : Bytes) (m : HeaderMap)
    (hpost : ∀ x ∈ post, headerName x ≠ headerName h) :
    (headersOf (pre ++ h :: post) m).get (headerName h) = some (headerValues h) := by
  have := headersOf_get_of_not_named (headerName h) post
    ((headersOf pre m).set (headerName h) (headerValues h)) hpost
  simp only [headersOf, List.foldl_append, List.foldl_cons] at this ⊢
  rw [this, HeaderMap.get_set, if_pos rfl]

theorem headersOf_mem_keys (k : Bytes) :
    ∀ (hs : List Bytes) (m : HeaderMap),
      k ∈ (headersOf hs m).keys ↔ (∃ h ∈ hs, headerName h = k) ∨ k ∈ m.keys := by
  intro hs
  induction hs with
  | nil => intro m; simp [headersOf]
  | cons h t ih =>
    intro m
    have h2 := ih (m.set (headerName h) (headerValues h))
    simp only [headersOf, List.foldl_cons] at h2 ⊢
    rw [h2, HeaderMap.mem_keys_iff, HeaderMap.mem_keys_iff]
    simp only [HeaderMap.get_set, List.mem_cons, exists_eq_or_imp]
    by_cases hk : k = headerName h
    · subst hk; simp
    · have hk2 : ¬ headerName h = k := fun e => hk e.symm
      simp [hk, hk2]

/-! ## Lemmas on `main.go` -/

theorem sliceFromTo_tail {α : Type} (x : α) (xs : List α) :
    sliceFromTo (x :: xs) 1 ((x :: xs).length : Int) = .ok xs := by
  have h : (1 : Int) ≤ ((xs.length + 1 : Nat) : Int) := by omega
  simp [sliceFromTo, h]

theorem sliceFromTo_headers {α : Type} (x : α) (hs rest : List α) :
    sliceFromTo (x :: (hs ++ rest)) 1 ((hs.length : Int) + 1) = .ok hs := by
  have h1 : (1 : Int) ≤ (hs.length : Int) + 1 := by omega
  have h2 : (hs.length : Int) + 1 ≤ (((hs ++ rest).length + 1 : Nat) : Int) := by
    simp only [List.length_append]; omega
  have h3 : ((hs.length : Int) + 1).toNat = hs.length + 1 := by omega
  simp only [sliceFromTo, List.length_cons, h1, h2, h3, and_self, if_true]
  simp

theorem sliceFromTo_to_len {α : Type} (xs : List α) (lo : Int) (h0 : 0 ≤ lo)
    (h1 : lo ≤ (xs.length : Int)) :
    ∃ r, sliceFromTo xs lo (xs.length : Int) = .ok r := by
  simp [sliceFromTo, h0, h1]

theorem sliceFromTo_neg {α : Type} (xs : List α) :
    sliceFromTo xs 1 (-1) = .error .sliceBounds := by
  simp [sliceFromTo]

theorem calculateHeaderLenFrom_none :
    ∀ (ls : List Bytes) (i : Nat), (∀ l ∈ ls, l ≠ []) → calculateHeaderLenFrom i ls = -1 := by
  intro ls
  induction ls with
  | nil => intro i _; rfl
  | cons l t ih =>
    intro i hall
    have h1 : l ≠ [] := hall l (List.mem_cons_self _ _)
    simp only [calculateHeaderLenFrom, if_neg h1]
    exact ih (i + 1) fun x hx => hall x (List.mem_cons_of_mem _ hx)

theorem calculateHeaderLenFrom_found (post : List Bytes) :
    ∀ (hs : List Bytes) (i : Nat), (∀ l ∈ hs, l ≠ []) →
      calculateHeaderLenFrom i (hs ++ [] :: post) = (i : Int) + (hs.length : Int) + 1 := by
  intro hs
  induction hs with
  | nil => intro i _; simp [calculateHeaderLenFrom]
  | cons l t ih =>
    intro i hall
    have h1 : l ≠ [] := hall l (List.mem_cons_self _ _)
    have hrec := ih (i + 1) fun x hx => hall x (List.mem_cons_of_mem _ hx)
    rw [List.cons_append, calculateHeaderLenFrom, if_neg h1, hrec]
    simp only [List.length_cons]
    push_cast
    omega

/-- A result other than `-1` comes from an empty line. -/
theorem calculateHeaderLenFrom_pos :
    ∀ (ls : List Bytes) (i : Nat), calculateHeaderLenFrom i ls ≠ -1 → [] ∈ ls := by
  intro ls
  induction ls with
  | nil => intro i h; exact absurd rfl h
  | cons l t ih =>
    intro i h
    by_cases hl : l = []
    · subst hl; exact List.mem_cons_self _ _
    · simp only [calculateHeaderLenFrom, if_neg hl] at h
      exact List.mem_cons_of_mem _ (ih (i + 1) h)

theorem parseHeadersLoop_ok :
    ∀ (hs : List Bytes) (m : HeaderMap), (∀ h ∈ hs, 58 ∈ h) →
      parseHeadersLoop hs m = .ok (headersOf hs m) := by
  intro hs
  induction hs with
  | nil => intro m _; rfl
  | cons h t ih =>
    intro m hall
    have h1 : 58 ∈ h := hall h (List.mem_cons_self _ _)
    have h2 := ih (m.set (headerName h) (headerValues h))
      fun x hx => hall x (List.mem_cons_of_mem _ hx)
    simp only [parseHeadersLoop, SplitN_colon h h1, indexAt]
    simpa [headersOf, headerName, headerValues, headerRawValue] using h2

theorem parseHeadersLoop_panic :
    ∀ (hs : List Bytes) (m : HeaderMap) (h : Bytes), h ∈ hs → 58 ∉ h →
      parseHeadersLoop hs m = .error .indexOutOfRange := by
  intro hs
  induction hs with
  | nil => intro m h hm; cases hm
  | cons x t ih =>
    intro m h hm hc
    by_cases hx : 58 ∈ x
    · have hmt : h ∈ t := by
        rcases List.mem_cons.mp hm with e | e
        · subst e; exact absurd hx hc
        · exact e
      simp only [parseHeadersLoop, SplitN_colon x hx, indexAt]
      simpa using ih _ h hmt hc
    · simp [parseHeadersLoop, SplitN_no_colon x hx, indexAt]

/-- The run of `parseHTTPReq` on a buffer whose lines are a valid request line, non-empty
header lines, an empty line and anything after it: the outcome is that of `parseHeaders` on
the header lines. -/
theorem parseHTTPReq_of_lines {U : Type} (urlParse : Bytes → Except GoError U) (req : Bytes)
    (first M T V : Bytes) (extra hs post : List Bytes) (u : U) (a b : Int)
    (h1 : Split req delim = first :: (hs ++ [] :: post))
    (h2 : Split first (bytes " ") = M :: T :: V :: extra)
    (hu : urlParse T = .ok u) (hv : parseHTTPVer V = (a, b, true))
    (hne : ∀ h ∈ hs, h ≠ []) :
    parseHTTPReq urlParse req =
      match parseHeaders hs with
      | .error p => .error p
      | .ok m => .ok (some { Method := M, URL := some u, Proto := V, ProtoMin := b,
                              ProtoMaj := a, Header := some m }, none) := by
  have hlen := calculateHeaderLenFrom_found post hs 0 hne
  have hcalc : calculateHeaderLen (hs ++ [] :: post) = (hs.length : Int) + 1 := by
    simp only [calculateHeaderLen, hlen]; omega
  have hbody : ∃ r, sliceFromTo (first :: (hs ++ [] :: post)) ((hs.length : Int) + 1)
      ((first :: (hs ++ [] :: post)).length : Int) = .ok r := by
    apply sliceFromTo_to_len
    · omega
    · simp only [List.length_cons, List.length_append]; omega
  obtain ⟨r, hr⟩ := hbody
  simp only [parseHTTPReq, h1, h2, indexAt, List.getElem?_cons_zero, List.getElem?_cons_succ,
    hu, hv, sliceFromTo_tail, hcalc, sliceFromTo_headers, hr, Request.zero]

theorem parseHeaders_ok (hs : List Bytes) (h : ∀ x ∈ hs, 58 ∈ x) :
    parseHeaders hs = .ok (headersOf hs []) :=
  parseHeadersLoop_ok hs [] h

/-- The run of `parseHTTPReq` on a message with a three-field request line and header lines
that all contain a colon. -/
theorem parseHTTPReq_message {U : Type} (urlParse : Bytes → Except GoError U)
    (M T V : Bytes) (u : U) (hs : List Bytes) (body : Bytes)
    (hM : 32 ∉ M) (hT : 32 ∉ T) (hV : 32 ∉ V)
    (hR : Index (requestLine M T V) delim = none)
    (hu : urlParse T = .ok u) (hv : (parseHTTPVer V).2.2 = true)
    (hhs : ∀ h ∈ hs, h ≠ [] ∧ Index h delim = none) :
    parseHTTPReq urlParse (message (requestLine M T V) hs body) =
      match parseHeaders hs with
      | .error p => .error p
      | .ok m => .ok (some { Method := M, URL := some u, Proto := V,
                              ProtoMin := (parseHTTPVer V).2.1, ProtoMaj := (parseHTTPVer V).1,
                              Header := some m }, none) := by
  have hv2 : parseHTTPVer V = ((parseHTTPVer V).1, (parseHTTPVer V).2.1, true) := by
    rw [← hv]
  exact parseHTTPReq_of_lines urlParse _ (requestLine M T V) M T V [] hs (Split body delim) u
    _ _ (Split_message _ hs body hR fun h hh => (hhs h hh).2)
    (Split_three_fields M T V hM hT hV) hu hv2 fun h hh => (hhs h hh).1

theorem ParseUint_singleton (c : Nat) :
    ParseUint [c] = if 48 ≤ c ∧ c ≤ 57 then some (c - 48) else none := by
  by_cases h : 48 ≤ c ∧ c ≤ 57
  · have h2 : c - 48 < 18446744073709551616 := by omega
    simp [ParseUint, h, h2]
  · simp [ParseUint, h]

theorem length_eight (xs : Bytes) (h : xs.length = 8) :
    ∃ a b c d e f g i, xs = [a, b, c, d, e, f, g, i] := by
  match xs, h with
  | [a, b, c, d, e, f, g, i], _ => exact ⟨a, b, c, d, e, f, g, i, rfl⟩

theorem Index_of_isPrefixOf (s p : Bytes) (h : p.isPrefixOf s = true) : Index s p = some 0 := by
  cases s <;> simp [Index, h]

/-- A string in which `p` occurs has an `Index` for `p`. -/
theorem Index_ne_none_of_occurs (p b : Bytes) :
    ∀ (a s : Bytes), s = a ++ p ++ b → Index s p ≠ none := by
  intro a
  induction a with
  | nil =>
    intro s e
    have hp : p.isPrefixOf s = true := by
      rw [List.isPrefixOf_iff_prefix, e]
      exact ⟨b, by simp⟩
    rw [Index_of_isPrefixOf s p hp]
    simp
  | cons c cs ih =>
    intro s e
    subst e
    have hrec := ih (cs ++ p ++ b) rfl
    simp only [List.cons_append, Index]
    split
    · simp
    · cases hI : Index (cs ++ p ++ b) p with
      | none => exact absurd hI hrec
      | some m => simp [hI]

theorem splitLoop_head_nil (sep : Bytes) (n : Nat) (s : Bytes) (post : List Bytes)
    (h : splitLoop sep n s = [] :: post) : s = [] ∨ ∃ b, s = sep ++ b := by
  cases n with
  | zero =>
    simp only [splitLoop, List.cons.injEq] at h
    exact Or.inl h.1
  | succ n =>
    simp only [splitLoop] at h
    cases hI : Index s sep with
    | none =>
      rw [hI] at h
      simp only [List.cons.injEq] at h
      exact Or.inl h.1
    | some m =>
      rw [hI] at h
      simp only [List.cons.injEq] at h
      have hs := Index_some_split sep s m hI
      rw [h.1] at hs
      exact Or.inr ⟨_, by simpa using hs⟩

/-- An empty piece after the first piece of a split comes from a separator that is followed
by another separator or by the end of the string. -/
theorem splitLoop_empty_piece (sep : Bytes) :
    ∀ (n : Nat) (s : Bytes) (pre post : List Bytes), pre ≠ [] →
      splitLoop sep n s = pre ++ [] :: post →
      (∃ a b, s = a ++ sep ++ sep ++ b) ∨ ∃ a, s = a ++ sep := by
  intro n
  induction n with
  | zero =>
    intro s pre post hpre h
    cases pre with
    | nil => exact absurd rfl hpre
    | cons p0 t => simp [splitLoop] at h
  | succ n ih =>
    intro s pre post hpre h
    cases pre with
    | nil => exact absurd rfl hpre
    | cons p0 t =>
      simp only [splitLoop] at h
      cases hI : Index s sep with
      | none => rw [hI] at h; simp at h
      | some m =>
        rw [hI] at h
        simp only [List.cons_append, List.cons.injEq] at h
        have hs := Index_some_split sep s m hI
        by_cases ht : t = []
        · subst ht
          rcases splitLoop_head_nil sep n _ post h.2 with e | ⟨b, e⟩
          · right
            rw [e] at hs
            exact ⟨s.take m, by simpa using hs⟩
          · left
            rw [e] at hs
            exact ⟨s.take m, b, by simpa [List.append_assoc] using hs⟩
        · rcases ih _ t post ht h.2 with ⟨a, b, e⟩ | ⟨a, e⟩
          · left
            rw [e] at hs
            exact ⟨s.take m ++ sep ++ a, b, by simpa [List.append_assoc] using hs⟩
          · right
            rw [e] at hs
            exact ⟨s.take m ++ sep ++ a, by simpa [List.append_assoc] using hs⟩

/-- A returned Request means that `calculateHeaderLen` found an empty line. -/
theorem parseHTTPReq_ok_headerLen {U : Type} (urlParse : Bytes → Except GoError U)
    (req : Bytes) (r : Request U) (h : parseHTTPReq urlParse req = .ok (some r, none)) :
    ∃ first ln2, Split req delim = first :: ln2 ∧ calculateHeaderLen ln2 ≠ -1 := by
  cases hS : Split req delim with
  | nil => simp [parseHTTPReq, hS, indexAt] at h
  | cons first ln2 =>
    refine ⟨first, ln2, rfl, ?_⟩
    intro hcalc
    simp only [parseHTTPReq, hS, indexAt, List.getElem?_cons_zero, sliceFromTo_tail, hcalc,
      sliceFromTo_neg] at h
    repeat' split at h
    all_goals simp at h

/-! ## The claims -/

/-- C1: on a buffer made of a request line with three space-separated fields (target
accepted by the URI parser, version accepted by `parseHTTPVer`), `N ≥ 0` non-empty header
lines that each contain a colon, and an empty line, each followed by CR LF, `parseHTTPReq`
returns a Request whose `Header` map has as keys exactly the names of these lines (the text
before the first colon), each key mapped to the value list of its line (of the last line
carrying that name): the value trimmed, split on commas, each fragment trimmed. -/
theorem C1_header_map_of_wellformed {U : Type} (urlParse : Bytes → Except GoError U)
    (M T V : Bytes) (u : U) (hs : List Bytes) (body : Bytes)
    (hM : 32 ∉ M) (hT : 32 ∉ T) (hV : 32 ∉ V)
    (hR : Index (requestLine M T V) delim = none)
    (hu : urlParse T = .ok u) (hv : (parseHTTPVer V).2.2 = true)
    (hhs : ∀ h ∈ hs, h ≠ [] ∧ 58 ∈ h ∧ Index h delim = none) :
    ∃ r m, parseHTTPReq urlParse (message (requestLine M T V) hs body) = .ok (some r, none) ∧
      r.Header = some m ∧
      (∀ k, k ∈ m.keys ↔ ∃ h ∈ hs, headerName h = k) ∧
      (∀ pre h post, hs = pre ++ h :: post → (∀ x ∈ post, headerName x ≠ headerName h) →
        m.get (headerName h) = some (headerValues h)) := by
  have hrun := parseHTTPReq_message urlParse M T V u hs body hM hT hV hR hu hv
    fun h hh => ⟨(hhs h hh).1, (hhs h hh).2.2⟩
  rw [parseHeaders_ok hs fun h hh => (hhs h hh).2.1] at hrun
  refine ⟨_, headersOf hs [], hrun, rfl, ?_, ?_⟩
  · intro k
    rw [headersOf_mem_keys]
    simp [HeaderMap.keys]
  · intro pre h post e hpost
    rw [e]
    exact headersOf_get_last pre post h [] hpost

/-- C1, at a request with two header lines. -/
theorem C1_header_map_of_wellformed_witness :
    ∃ r m, parseHTTPReq urlParseOrigin
        (message (requestLine (bytes "GET") (bytes "/") (bytes "HTTP/1.1"))
          [bytes "Host: localhost:8080", bytes "Accept-Encoding: gzip, deflate"] []) =
          .ok (some r, none) ∧
      r.Header = some m ∧
      (∀ k, k ∈ m.keys ↔
        ∃ h ∈ [bytes "Host: localhost:8080", bytes "Accept-Encoding: gzip, deflate"],
          headerName h = k) ∧
      (∀ pre h post,
        [bytes "Host: localhost:8080", bytes "Accept-Encoding: gzip, deflate"]
          = pre ++ h :: post →
        (∀ x ∈ post, headerName x ≠ headerName h) →
        m.get (headerName h) = some (headerValues h)) :=
  C1_header_map_of_wellformed urlParseOrigin (bytes "GET") (bytes "/") (bytes "HTTP/1.1")
    { Path := bytes "/", RawQuery := [] } _ []
    (by decide) (by decide) (by decide) (by decide) (by decide) (by decide) (by decide)

/-- C2: on a well-formed request whose request line is `M T V`, three fields separated by
single spaces, so that none of them holds a space, with `T` accepted by the URI parser and
`V` by `parseHTTPVer`, `parseHTTPReq` returns a Request with `Method = M`, `URL` the parse
of `T`, `Proto = V`, `(ProtoMaj, ProtoMin)` the pair `parseHTTPVer` returns for `V`, and the
header map of the header lines. -/
theorem C2_request_line_fields {U : Type} (urlParse : Bytes → Except GoError U)
    (M T V : Bytes) (u : U) (hs : List Bytes) (body : Bytes)
    (hM : 32 ∉ M) (hT : 32 ∉ T) (hV : 32 ∉ V)
    (hR : Index (requestLine M T V) delim = none)
    (hu : urlParse T = .ok u) (hv : (parseHTTPVer V).2.2 = true)
    (hhs : ∀ h ∈ hs, h ≠ [] ∧ 58 ∈ h ∧ Index h delim = none) :
    parseHTTPReq urlParse (message (requestLine M T V) hs body) =
      .ok (some { Method := M, URL := some u, Proto := V,
                  ProtoMin := (parseHTTPVer V).2.1, ProtoMaj := (parseHTTPVer V).1,
                  Header := some (headersOf hs []) }, none) := by
  have hrun := parseHTTPReq_message urlParse M T V u hs body hM hT hV hR hu hv
    fun h hh => ⟨(hhs h hh).1, (hhs h hh).2.2⟩
  rw [parseHeaders_ok hs fun h hh => (hhs h hh).2.1] at hrun
  exact hrun

/-- C2, at the request `GET /path?q=1 HTTP/1.1` with the header line
`Accept: text/html, application/xml`: method `GET`, the target parsed from `/path?q=1`
(path `/path`, query `q=1`), version 1/1 and
`Header["Accept"] = ["text/html", "application/xml"]`. -/
theorem C2_request_line_fields_witness :
    message (requestLine (bytes "GET") (bytes "/path?q=1") (bytes "HTTP/1.1"))
        [bytes "Accept: text/html, application/xml"] []
      = bytes "GET /path?q=1 HTTP/1.1\r\nAccept: text/html, application/xml\r\n\r\n" ∧
    parseHTTPReq urlParseOrigin
        (message (requestLine (bytes "GET") (bytes "/path?q=1") (bytes "HTTP/1.1"))
          [bytes "Accept: text/html, application/xml"] []) =
      .ok (some { Method := bytes "GET",
                  URL := some { Path := bytes "/path", RawQuery := bytes "q=1" },
                  Proto := bytes "HTTP/1.1", ProtoMin := 1, ProtoMaj := 1,
                  Header := some [(bytes "Accept",
                    [bytes "text/html", bytes "application/xml"])] }, none) :=
  ⟨by decide,
   C2_request_line_fields urlParseOrigin (bytes "GET") (bytes "/path?q=1") (bytes "HTTP/1.1")
    { Path := bytes "/path", RawQuery := bytes "q=1" }
    [bytes "Accept: text/html, application/xml"] []
    (by decide) (by decide) (by decide) (by decide) (by decide) (by decide) (by decide)⟩

/-- C3 (the code faults): on a buffer whose request line is valid (at least three fields,
target accepted by the URI parser, version accepted) and whose lines after the request line
are all non-empty, `calculateHeaderLen` returns `-1` and `parseHTTPReq` ends in the panic of
the slice expression `splits[1:-1]`; no error value is returned. -/
theorem C3_missing_terminator_faults {U : Type} (urlParse : Bytes → Except GoError U)
    (req first M T V : Bytes) (extra ln2 : List Bytes) (u : U) (a b : Int)
    (h1 : Split req delim = first :: ln2)
    (h2 : Split first (bytes " ") = M :: T :: V :: extra)
    (hu : urlParse T = .ok u) (hv : parseHTTPVer V = (a, b, true))
    (hne : ∀ l ∈ ln2, l ≠ []) :
    parseHTTPReq urlParse req = .error .sliceBounds := by
  have hcalc : calculateHeaderLen ln2 = -1 := calculateHeaderLenFrom_none ln2 0 hne
  simp only [parseHTTPReq, h1, h2, indexAt, List.getElem?_cons_zero, List.getElem?_cons_succ,
    hu, hv, sliceFromTo_tail, hcalc, sliceFromTo_neg]

/-- C3, at the buffer `GET / HTTP/1.1\r\nHost: x` that ends inside the header section. -/
theorem C3_missing_terminator_faults_witness :
    parseHTTPReq urlParseOrigin (bytes "GET / HTTP/1.1\r\nHost: x") = .error .sliceBounds :=
  C3_missing_terminator_faults urlParseOrigin (bytes "GET / HTTP/1.1\r\nHost: x")
    (bytes "GET / HTTP/1.1") (bytes "GET") (bytes "/") (bytes "HTTP/1.1") [] [bytes "Host: x"]
    { Path := bytes "/", RawQuery := [] } 1 1
    (by decide) (by decide) (by decide) (by decide) (by decide)

/-- C4 (the code faults): on a buffer whose first line splits on single spaces into fewer
than three fields, `parseHTTPReq` ends in an index-out-of-range panic (`ln1[1]` or `ln1[2]`)
whenever the URI parser accepts the second field, if there is one; no error value is
returned. -/
theorem C4_short_request_line_faults {U : Type} (urlParse : Bytes → Except GoError U)
    (req : Bytes)
    (hlt : (Split ((Split req delim).headD []) (bytes " ")).length < 3)
    (hu : ∀ t, (Split ((Split req delim).headD []) (bytes " "))[1]? = some t →
      ∃ u, urlParse t = .ok u) :
    parseHTTPReq urlParse req = .error .indexOutOfRange := by
  cases hS : Split req delim with
  | nil => simp [parseHTTPReq, hS, indexAt]
  | cons first ln2 =>
    rw [hS] at hlt hu
    simp only [List.headD_cons] at hlt hu
    cases hF : Split first (bytes " ") with
    | nil => simp [parseHTTPReq, hS, hF, indexAt]
    | cons f0 t0 =>
      cases t0 with
      | nil => simp [parseHTTPReq, hS, hF, indexAt]
      | cons f1 t1 =>
        cases t1 with
        | nil =>
          obtain ⟨u, hu1⟩ := hu f1 (by rw [hF]; rfl)
          simp [parseHTTPReq, hS, hF, indexAt, hu1]
        | cons f2 t2 =>
          rw [hF] at hlt
          simp only [List.length_cons] at hlt
          omega

/-- C4, at the buffer `GET /`, whose request line has two fields. -/
theorem C4_short_request_line_faults_witness :
    (Split ((Split (bytes "GET /") delim).headD []) (bytes " ")).length = 2 ∧
    parseHTTPReq urlParseOrigin (bytes "GET /") = .error .indexOutOfRange :=
  ⟨by decide, C4_short_request_line_faults urlParseOrigin (bytes "GET /") (by decide)
    (fun t ht => ⟨{ Path := bytes "/", RawQuery := [] }, by
      have e : (Split ((Split (bytes "GET /") delim).headD []) (bytes " "))[1]?
          = some (bytes "/") := by decide
      rw [e] at ht
      cases ht
      decide⟩)⟩

/-- C5 (the code faults): when some header line contains no colon, `parseHeaders` ends in
the index-out-of-range panic of `splits[1]`, and so does `parseHTTPReq` on an otherwise
valid request with such a line before the empty line; no error value is returned. -/
theorem C5_colonless_header_faults {U : Type} (urlParse : Bytes → Except GoError U)
    (M T V : Bytes) (u : U) (hs : List Bytes) (body h : Bytes)
    (hM : 32 ∉ M) (hT : 32 ∉ T) (hV : 32 ∉ V)
    (hR : Index (requestLine M T V) delim = none)
    (hu : urlParse T = .ok u) (hv : (parseHTTPVer V).2.2 = true)
    (hhs : ∀ x ∈ hs, x ≠ [] ∧ Index x delim = none)
    (hmem : h ∈ hs) (hc : 58 ∉ h) :
    parseHeaders hs = .error .indexOutOfRange ∧
    parseHTTPReq urlParse (message (requestLine M T V) hs body) = .error .indexOutOfRange := by
  have hp : parseHeaders hs = .error .indexOutOfRange :=
    parseHeadersLoop_panic hs [] h hmem hc
  refine ⟨hp, ?_⟩
  rw [parseHTTPReq_message urlParse M T V u hs body hM hT hV hR hu hv hhs, hp]

/-- C5, at the request `GET / HTTP/1.1` with the header lines `Host: x` and `X-Bad-Header`. -/
theorem C5_colonless_header_faults_witness :
    message (requestLine (bytes "GET") (bytes "/") (bytes "HTTP/1.1"))
        [bytes "Host: x", bytes "X-Bad-Header"] []
      = bytes "GET / HTTP/1.1\r\nHost: x\r\nX-Bad-Header\r\n\r\n" ∧
    parseHeaders [bytes "Host: x", bytes "X-Bad-Header"] = .error .indexOutOfRange ∧
    parseHTTPReq urlParseOrigin
        (message (requestLine (bytes "GET") (bytes "/") (bytes "HTTP/1.1"))
          [bytes "Host: x", bytes "X-Bad-Header"] []) = .error .indexOutOfRange :=
  ⟨by decide,
   C5_colonless_header_faults urlParseOrigin (bytes "GET") (bytes "/") (bytes "HTTP/1.1")
    { Path := bytes "/", RawQuery := [] } [bytes "Host: x", bytes "X-Bad-Header"] []
    (bytes "X-Bad-Header")
    (by decide) (by decide) (by decide) (by decide) (by decide) (by decide) (by decide)
    (by decide) (by decide)⟩

/-- C6 (the code faults): `parseHTTPReq` is not total. On the empty buffer it ends in an
index-out-of-range panic whatever the URI parser is, and on a request cut inside a header
line it ends in a slice-bounds panic. -/
theorem C6_parse_faults_on_truncated_input :
    (∀ (U : Type) (urlParse : Bytes → Except GoError U),
      parseHTTPReq urlParse [] = .error .indexOutOfRange) ∧
    parseHTTPReq urlParseOrigin (bytes "GET / HTTP/1.1\r\nHost: loc") = .error .sliceBounds := by
  refine ⟨?_, by decide⟩
  intro U urlParse
  have hS : Split [] delim = [[]] := by decide
  have hF : Split [] (bytes " ") = [[]] := by decide
  simp [parseHTTPReq, hS, hF, indexAt]

/-- C7: for all decimal digits `a` and `b`, `parseHTTPVer` applied to the 8-byte token
`HTTP/a.b` succeeds and returns `(a, b)`. -/
theorem C7_version_of_digits (a b : Nat) (ha : a < 10) (hb : b < 10) :
    parseHTTPVer (bytes "HTTP/" ++ [48 + a, 46, 48 + b]) = ((a : Int), (b : Int), true) := by
  have key : ∀ a : Nat, a < 10 → ∀ b : Nat, b < 10 →
      parseHTTPVer (bytes "HTTP/" ++ [48 + a, 46, 48 + b]) = ((a : Int), (b : Int), true) := by
    decide
  exact key a ha b hb

/-- C7, at `HTTP/2.0`, together with the tokens `HTTP/1.1`, `HTTP/1.0` and `HTTP/2.0`
written as literals. -/
theorem C7_version_of_digits_witness :
    parseHTTPVer (bytes "HTTP/" ++ [48 + 2, 46, 48 + 0]) = (2, 0, true) ∧
    parseHTTPVer (bytes "HTTP/1.1") = (1, 1, true) ∧
    parseHTTPVer (bytes "HTTP/1.0") = (1, 0, true) ∧
    parseHTTPVer (bytes "HTTP/2.0") = (2, 0, true) :=
  ⟨C7_version_of_digits 2 0 (by decide) (by decide), by decide, by decide, by decide⟩

/-- C8: `parseHTTPVer` fails for every token that does not start with the prefix `HTTP/`,
or whose length is not 8 bytes, or that has no decimal digit at position 5, or none at
position 7. -/
theorem C8_version_rejects (vers : Bytes)
    (h : HasPrefix vers (bytes "HTTP/") = false ∨ vers.length ≠ 8 ∨
      (¬ ∃ c, vers[5]? = some c ∧ 48 ≤ c ∧ c ≤ 57) ∨
      (¬ ∃ c, vers[7]? = some c ∧ 48 ≤ c ∧ c ≤ 57)) :
    parseHTTPVer vers = (0, 0, false) := by
  by_cases e1 : vers = bytes "HTTP/1.1"
  · subst e1
    rcases h with h | h | h | h
    · exact absurd h (by decide)
    · exact absurd h (by decide)
    · exact absurd ⟨49, by decide⟩ h
    · exact absurd ⟨49, by decide⟩ h
  by_cases e2 : vers = bytes "HTTP/1.0"
  · subst e2
    rcases h with h | h | h | h
    · exact absurd h (by decide)
    · exact absurd h (by decide)
    · exact absurd ⟨49, by decide⟩ h
    · exact absurd ⟨48, by decide⟩ h
  by_cases hp : HasPrefix vers (bytes "HTTP/") = true
  · by_cases hl : vers.length = 8
    · obtain ⟨v0, v1, v2, v3, v4, v5, v6, v7, rfl⟩ := length_eight vers hl
      have hlen : (bytes "HTTP/X.Y").length = 8 := by decide
      have hd : ¬ (48 ≤ v5 ∧ v5 ≤ 57) ∨ ¬ (48 ≤ v7 ∧ v7 ≤ 57) := by
        rcases h with h | h | h | h
        · rw [hp] at h; cases h
        · exact absurd hl h
        · exact Or.inl fun hc => h ⟨v5, rfl, hc⟩
        · exact Or.inr fun hc => h ⟨v7, rfl, hc⟩
      simp only [parseHTTPVer, if_neg e1, if_neg e2, hp, hlen, List.length_cons,
        List.length_nil, List.take, List.drop, ParseUint_singleton]
      rcases hd with hd | hd
      · simp [hd]
      · by_cases h5 : 48 ≤ v5 ∧ v5 ≤ 57
        · simp [h5, hd]
        · simp [h5]
    · have hlen : (bytes "HTTP/X.Y").length = 8 := by decide
      simp [parseHTTPVer, e1, e2, hp, hlen, hl]
  · simp [parseHTTPVer, e1, e2, hp]

/-- C8, at the tokens `HTTP/1` (six bytes) and `http/1.1` (lower-case prefix). -/
theorem C8_version_rejects_witness :
    parseHTTPVer (bytes "HTTP/1") = (0, 0, false) ∧
    parseHTTPVer (bytes "http/1.1") = (0, 0, false) :=
  ⟨C8_version_rejects (bytes "HTTP/1") (Or.inr (Or.inl (by decide))),
   C8_version_rejects (bytes "http/1.1") (Or.inl (by decide))⟩

/-- C9 (the code accepts more): the token `HTTP/1x1`, whose byte at position 6 is `x` and
not `.`, is accepted by `parseHTTPVer` as version 1.1. -/
theorem C9_version_accepts_without_dot :
    (bytes "HTTP/1x1")[6]? = some 120 ∧ parseHTTPVer (bytes "HTTP/1x1") = (1, 1, true) := by
  decide

/-- When `parseHTTPReq` returns a Request, a line after the first line of the CR LF split
is empty: CR LF CR LF occurs in the buffer, or the buffer ends with CR LF and the empty last
piece of `bytes.Split` is taken for the empty line. -/
theorem parseHTTPReq_ok_empty_line {U : Type} (urlParse : Bytes → Except GoError U)
    (req : Bytes) (r : Request U) (h : parseHTTPReq urlParse req = .ok (some r, none)) :
    [] ∈ (Split req delim).tail ∧
      ((∃ a b, req = a ++ delim ++ delim ++ b) ∨ ∃ a, req = a ++ delim) := by
  obtain ⟨first, ln2, hS, hcalc⟩ := parseHTTPReq_ok_headerLen urlParse req r h
  have hmem : [] ∈ ln2 := calculateHeaderLenFrom_pos ln2 0 hcalc
  refine ⟨by rw [hS]; exact hmem, ?_⟩
  obtain ⟨pre, post, e⟩ := List.mem_iff_append.mp hmem
  rw [Split_eq_splitLoop, e] at hS
  exact splitLoop_empty_piece delim _ req (first :: pre) post (by simp) (by simpa using hS)

/-- C10 (the code accepts more): the buffers `GET / HTTP/1.1\r\n` and
`GET / HTTP/1.1\r\nHost: x\r\n` end with a single CR LF and hold no CR LF CR LF, and
`parseHTTPReq` returns a Request for both, the second with the header read so far: the
empty last piece that `bytes.Split` leaves after the final CR LF is taken for the empty
line. The same message cut three bytes later, inside the next header line, ends in the
slice panic. -/
theorem C10_accepts_without_blank_line :
    parseHTTPReq urlParseOrigin (bytes "GET / HTTP/1.1\r\n") =
      .ok (some { Method := bytes "GET", URL := some { Path := bytes "/", RawQuery := [] },
                  Proto := bytes "HTTP/1.1", ProtoMin := 1, ProtoMaj := 1,
                  Header := some [] }, none) ∧
    (¬ ∃ a b, bytes "GET / HTTP/1.1\r\n" = a ++ delim ++ delim ++ b) ∧
    parseHTTPReq urlParseOrigin (bytes "GET / HTTP/1.1\r\nHost: x\r\n") =
      .ok (some { Method := bytes "GET", URL := some { Path := bytes "/", RawQuery := [] },
                  Proto := bytes "HTTP/1.1", ProtoMin := 1, ProtoMaj := 1,
                  Header := some [(bytes "Host", [bytes "x"])] }, none) ∧
    (¬ ∃ a b, bytes "GET / HTTP/1.1\r\nHost: x\r\n" = a ++ delim ++ delim ++ b) ∧
    parseHTTPReq urlParseOrigin (bytes "GET / HTTP/1.1\r\nHost: x\r\nAcc")
      = .error Panic.sliceBounds := by
  refine ⟨by decide, ?_, by decide, ?_, by decide⟩
  · rintro ⟨a, b, e⟩
    exact Index_ne_none_of_occurs (delim ++ delim) b a _
      (by simpa [List.append_assoc] using e) (by decide)
  · rintro ⟨a, b, e⟩
    exact Index_ne_none_of_occurs (delim ++ delim) b a _
      (by simpa [List.append_assoc] using e) (by decide)

/-! ## Further lemmas on the library functions -/

theorem splitLoop_ne_nil (sep : Bytes) (n : Nat) (s : Bytes) : splitLoop sep n s ≠ [] := by
  cases n with
  | zero => simp [splitLoop]
  | succ n =>
    simp only [splitLoop]
    cases Index s sep <;> simp

theorem Split_ne_nil (s sep : Bytes) : Split s sep ≠ [] := by
  rw [Split_eq_splitLoop]
  exact splitLoop_ne_nil sep _ s

theorem Index_byte_cons_eq (b : Nat) (cs : Bytes) : Index (b :: cs) [b] = some 0 := by
  simp [Index, List.isPrefixOf]

theorem Index_byte_cons_ne (b c : Nat) (cs : Bytes) (h : c ≠ b) :
    Index (c :: cs) [b] = (Index cs [b]).map (· + 1) := by
  have hbc : ¬ b = c := fun e => h e.symm
  simp [Index, List.isPrefixOf, hbc]

/-- Splitting on one byte, read from the left: a separator byte opens a new piece. -/
theorem Split_byte_cons_eq (b : Nat) (cs : Bytes) : Split (b :: cs) [b] = [] :: Split cs [b] := by
  rw [Split_of_Index_some (b :: cs) [b] (by simp) 0 (Index_byte_cons_eq b cs)]
  simp

/-- Splitting on one byte, read from the left: another byte joins the first piece. -/
theorem Split_byte_cons_ne (b c : Nat) (cs : Bytes) (h : c ≠ b) :
    Split (c :: cs) [b] = (c :: (Split cs [b]).headD []) :: (Split cs [b]).tail := by
  cases hI : Index cs [b] with
  | none =>
    have h1 : Index (c :: cs) [b] = none := by rw [Index_byte_cons_ne b c cs h, hI]; rfl
    rw [Split_of_Index_none _ _ h1, Split_of_Index_none _ _ hI]
    rfl
  | some m =>
    have h1 : Index (c :: cs) [b] = some (m + 1) := by rw [Index_byte_cons_ne b c cs h, hI]; rfl
    rw [Split_of_Index_some _ _ (by simp) _ h1, Split_of_Index_some _ _ (by simp) _ hI]
    simp

theorem Split_byte_append (b : Nat) (c : Bytes) :
    ∀ a : Bytes, Split (a ++ [b] ++ c) [b] = Split a [b] ++ Split c [b] := by
  intro a
  induction a with
  | nil =>
    have : Split [] [b] = [[]] := Split_of_Index_none [] [b] (by simp [Index, List.isPrefixOf])
    rw [this]
    exact Split_byte_cons_eq b c
  | cons d t ih =>
    by_cases hd : d = b
    · subst hd
      simp only [List.cons_append, List.append_assoc] at ih ⊢
      rw [Split_byte_cons_eq, Split_byte_cons_eq, ih]
      rfl
    · simp only [List.cons_append, List.append_assoc] at ih ⊢
      rw [Split_byte_cons_ne b d _ hd, Split_byte_cons_ne b d _ hd, ih]
      cases hS : Split t [b] with
      | nil => exact absurd hS (Split_ne_nil t [b])
      | cons p ps => rfl

/-- The text before the first occurrence of a separator does not hold the separator. -/
theorem Index_take_none (sep : Bytes) (hsep : sep ≠ []) :
    ∀ (s : Bytes) (k : Nat), Index s sep = some k → Index (s.take k) sep = none := by
  have hnil : Index [] sep = none := by
    cases sep with
    | nil => exact absurd rfl hsep
    | cons a t => simp [Index, List.isPrefixOf]
  intro s
  induction s with
  | nil => intro k _; simpa using hnil
  | cons c cs ih =>
    intro k h
    simp only [Index] at h
    split at h
    · cases h; simpa using hnil
    · rename_i hp
      cases hI : Index cs sep with
      | none => rw [hI] at h; cases h
      | some m =>
        rw [hI] at h
        simp only [Option.map_some', Option.some.injEq] at h
        subst h
        have hrec := ih m hI
        have hp2 : sep.isPrefixOf (c :: cs.take m) = false := by
          cases hq : sep.isPrefixOf (c :: cs.take m) with
          | false => rfl
          | true =>
            exfalso
            apply hp
            rw [ List.isPrefixOf_iff_prefix] at hq ⊢
            exact hq.trans ((List.prefix_cons_inj c).mpr (List.take_prefix m cs))
        rw [List.take_succ_cons, Index, hp2, hrec]
        rfl

theorem Index_delim_space_append (b : Bytes) (hb : Index b delim = none) :
    ∀ a : Bytes, Index a delim = none → Index (a ++ [32] ++ b) delim = none := by
  rw [delim_eq] at hb ⊢
  intro a
  induction a with
  | nil => intro _; simp [Index, List.isPrefixOf, hb]
  | cons c cs ih =>
    intro h
    simp only [Index] at h
    split at h
    · cases h
    · rename_i hp
      simp only [Option.map_eq_none'] at h
      have hrec := ih h
      have hp2 : List.isPrefixOf [13, 10] (c :: cs ++ [32] ++ b) = false := by
        cases cs with
        | nil => simp [List.isPrefixOf]
        | cons d t => simpa [List.isPrefixOf] using hp
      simp only [List.cons_append, List.append_assoc, List.nil_append] at hp2 hrec ⊢
      rw [Index, hp2, hrec]
      rfl

/-! ## Further lemmas on `main.go` -/

theorem list_upto_three {α : Type} (l : List α) :
    l = [] ∨ (∃ a, l = [a]) ∨ (∃ a b, l = [a, b]) ∨ ∃ a b c t, l = a :: b :: c :: t := by
  match l with
  | [] => exact Or.inl rfl
  | [a] => exact Or.inr (Or.inl ⟨a, rfl⟩)
  | [a, b] => exact Or.inr (Or.inr (Or.inl ⟨a, b, rfl⟩))
  | a :: b :: c :: t => exact Or.inr (Or.inr (Or.inr ⟨a, b, c, t, rfl⟩))

/-- The lines up to the first empty line. -/
theorem first_empty_line :
    ∀ ls : List Bytes, [] ∈ ls → ∃ hs post, ls = hs ++ [] :: post ∧ ∀ h ∈ hs, h ≠ [] := by
  intro ls
  induction ls with
  | nil => intro h; cases h
  | cons l t ih =>
    intro h
    by_cases hl : l = []
    · subst hl
      exact ⟨[], t, rfl, fun _ hh => by cases hh⟩
    · have ht : [] ∈ t := by
        rcases List.mem_cons.mp h with e | e
        · exact absurd e.symm hl
        · exact e
      obtain ⟨hs, post, e, hne⟩ := ih ht
      refine ⟨l :: hs, post, by rw [e]; rfl, ?_⟩
      intro x hx
      rcases List.mem_cons.mp hx with e1 | e1
      · rw [e1]; exact hl
      · exact hne x e1

/-- Without an empty line after a valid request line the call ends in the slice panic. -/
theorem parseHTTPReq_no_empty_line {U : Type} (urlParse : Bytes → Except GoError U)
    (req first M T V : Bytes) (extra ln2 : List Bytes) (u : U) (a b : Int)
    (h1 : Split req delim = first :: ln2)
    (h2 : Split first (bytes " ") = M :: T :: V :: extra)
    (hu : urlParse T = .ok u) (hv : parseHTTPVer V = (a, b, true))
    (hne : ∀ l ∈ ln2, l ≠ []) :
    parseHTTPReq urlParse req = .error .sliceBounds := by
  have hcalc : calculateHeaderLen ln2 = -1 := calculateHeaderLenFrom_none ln2 0 hne
  simp only [parseHTTPReq, h1, h2, indexAt, List.getElem?_cons_zero, List.getElem?_cons_succ,
    hu, hv, sliceFromTo_tail, hcalc, sliceFromTo_neg]

/-- A rejected target gives the pair `(nil, err)` with the error of the URI parser. -/
theorem parseHTTPReq_bad_target {U : Type} (urlParse : Bytes → Except GoError U)
    (req first M T : Bytes) (extra ln2 : List Bytes) (e : GoError)
    (h1 : Split req delim = first :: ln2)
    (h2 : Split first (bytes " ") = M :: T :: extra)
    (hu : urlParse T = .error e) :
    parseHTTPReq urlParse req = .ok (none, some e) := by
  simp only [parseHTTPReq, h1, h2, indexAt, List.getElem?_cons_zero,
    List.getElem?_cons_succ, hu]

/-- A rejected version gives the pair `(nil, err)`. -/
theorem parseHTTPReq_bad_version {U : Type} (urlParse : Bytes → Except GoError U)
    (req first M T V : Bytes) (extra ln2 : List Bytes) (u : U)
    (h1 : Split req delim = first :: ln2)
    (h2 : Split first (bytes " ") = M :: T :: V :: extra)
    (hu : urlParse T = .ok u) (hv : (parseHTTPVer V).2.2 = false) :
    parseHTTPReq urlParse req = .ok (none, some "invalid HTTP version string") := by
  have hv2 : parseHTTPVer V = ((parseHTTPVer V).1, (parseHTTPVer V).2.1, false) := by
    rw [← hv]
  simp only [parseHTTPReq, h1, h2, indexAt, List.getElem?_cons_zero,
    List.getElem?_cons_succ, hu]
  rw [hv2]

/-- A rejected target or a rejected version gives the pair `(nil, err)`. -/
theorem parseHTTPReq_rejected {U : Type} (urlParse : Bytes → Except GoError U)
    (req first M T V : Bytes) (extra ln2 : List Bytes)
    (h1 : Split req delim = first :: ln2)
    (h2 : Split first (bytes " ") = M :: T :: V :: extra)
    (hbad : (∃ e, urlParse T = .error e) ∨ (parseHTTPVer V).2.2 = false) :
    ∃ e, parseHTTPReq urlParse req = .ok (none, some e) := by
  cases hu : urlParse T with
  | error e => exact ⟨e, parseHTTPReq_bad_target urlParse req first M T _ ln2 e h1 h2 hu⟩
  | ok u =>
    rcases hbad with ⟨e, he⟩ | hv
    · rw [hu] at he; cases he
    · exact ⟨_, parseHTTPReq_bad_version urlParse req first M T V extra ln2 u h1 h2 hu hv⟩

/-- Every run of `parseHTTPReq` ends in a panic, in the pair `(nil, err)`, or in the pair
`(request, nil)` with all fields of the request taken from the message. -/
theorem parseHTTPReq_cases {U : Type} (urlParse : Bytes → Except GoError U) (req : Bytes) :
    (∃ p, parseHTTPReq urlParse req = .error p) ∨
    (∃ e, parseHTTPReq urlParse req = .ok (none, some e)) ∨
    (∃ first M T V extra hs post u a b m,
      Split req delim = first :: (hs ++ [] :: post) ∧
      Split first (bytes " ") = M :: T :: V :: extra ∧
      urlParse T = .ok u ∧ parseHTTPVer V = (a, b, true) ∧ (∀ h ∈ hs, h ≠ []) ∧
      parseHeaders hs = .ok m ∧
      parseHTTPReq urlParse req =
        .ok (some { Method := M, URL := some u, Proto := V, ProtoMin := b, ProtoMaj := a,
                    Header := some m }, none)) := by
  obtain ⟨first, ln2, hS⟩ : ∃ first ln2, Split req delim = first :: ln2 := by
    cases h : Split req delim with
    | nil => exact absurd h (Split_ne_nil req delim)
    | cons x t => exact ⟨x, t, rfl⟩
  rcases list_upto_three (Split first (bytes " ")) with hF | ⟨f0, hF⟩ | ⟨f0, f1, hF⟩ |
    ⟨f0, f1, f2, t2, hF⟩
  · exact absurd hF (Split_ne_nil first _)
  · exact Or.inl ⟨Panic.indexOutOfRange, by simp [parseHTTPReq, hS, hF, indexAt]⟩
  · cases hu : urlParse f1 with
    | error e => exact Or.inr (Or.inl ⟨e, by simp [parseHTTPReq, hS, hF, indexAt, hu]⟩)
    | ok u =>
      exact Or.inl ⟨Panic.indexOutOfRange, by simp [parseHTTPReq, hS, hF, indexAt, hu]⟩
  · cases hu : urlParse f1 with
    | error e =>
      exact Or.inr (Or.inl (parseHTTPReq_rejected urlParse req first f0 f1 f2 t2 ln2
        hS hF (Or.inl ⟨e, hu⟩)))
    | ok u =>
      by_cases hv : (parseHTTPVer f2).2.2 = true
      · have hv2 : parseHTTPVer f2 = ((parseHTTPVer f2).1, (parseHTTPVer f2).2.1, true) := by
          rw [← hv]
        by_cases hmem : [] ∈ ln2
        · obtain ⟨hs, post, e, hne⟩ := first_empty_line ln2 hmem
          rw [e] at hS
          have hrun := parseHTTPReq_of_lines urlParse req first f0 f1 f2 t2 hs post u _ _
            hS hF hu hv2 hne
          cases hp : parseHeaders hs with
          | error p => rw [hp] at hrun; exact Or.inl ⟨p, hrun⟩
          | ok m =>
            rw [hp] at hrun
            exact Or.inr (Or.inr ⟨first, f0, f1, f2, t2, hs, post, u, _, _, m, hS, hF, hu,
              hv2, hne, hp, hrun⟩)
        · have hne : ∀ l ∈ ln2, l ≠ [] := fun l hl e => hmem (e ▸ hl)
          exact Or.inl ⟨_, parseHTTPReq_no_empty_line urlParse req first f0 f1 f2 t2 ln2 u
            _ _ hS hF hu hv2 hne⟩
      · have hv3 : (parseHTTPVer f2).2.2 = false := by simpa using hv
        exact Or.inr (Or.inl (parseHTTPReq_rejected urlParse req first f0 f1 f2 t2 ln2
          hS hF (Or.inr hv3)))

/-- What follows the first empty line has no part in the outcome. -/
theorem parseHTTPReq_lines_indep {U : Type} (urlParse : Bytes → Except GoError U)
    (req1 req2 first : Bytes) (hs post1 post2 : List Bytes)
    (h1 : Split req1 delim = first :: (hs ++ [] :: post1))
    (h2 : Split req2 delim = first :: (hs ++ [] :: post2))
    (hne : ∀ h ∈ hs, h ≠ []) :
    parseHTTPReq urlParse req1 = parseHTTPReq urlParse req2 := by
  rcases list_upto_three (Split first (bytes " ")) with hF | ⟨f0, hF⟩ | ⟨f0, f1, hF⟩ |
    ⟨f0, f1, f2, t2, hF⟩
  · exact absurd hF (Split_ne_nil first _)
  · simp [parseHTTPReq, h1, h2, hF, indexAt]
  · cases hu : urlParse f1 <;> simp [parseHTTPReq, h1, h2, hF, indexAt, hu]
  · cases hu : urlParse f1 with
    | error e =>
      rw [parseHTTPReq_bad_target urlParse req1 first f0 f1 _ _ e h1 hF hu,
        parseHTTPReq_bad_target urlParse req2 first f0 f1 _ _ e h2 hF hu]
    | ok u =>
      by_cases hv : (parseHTTPVer f2).2.2 = true
      · have hv2 : parseHTTPVer f2 = ((parseHTTPVer f2).1, (parseHTTPVer f2).2.1, true) := by
          rw [← hv]
        rw [parseHTTPReq_of_lines urlParse req1 first f0 f1 f2 t2 hs post1 u _ _ h1 hF hu hv2 hne,
          parseHTTPReq_of_lines urlParse req2 first f0 f1 f2 t2 hs post2 u _ _ h2 hF hu hv2 hne]
      · have hv3 : (parseHTTPVer f2).2.2 = false := by simpa using hv
        rw [parseHTTPReq_bad_version urlParse req1 first f0 f1 f2 t2 _ u h1 hF hu hv3,
          parseHTTPReq_bad_version urlParse req2 first f0 f1 f2 t2 _ u h2 hF hu hv3]

/-- The lines of a buffer joined from CR LF-free lines, an empty line and further lines. -/
theorem Split_joinLines (B : List Bytes) :
    ∀ ls : List Bytes, (∀ l ∈ ls, Index l delim = none) →
      ∃ post, Split (joinLines (ls ++ [] :: B)) delim = ls ++ [] :: post := by
  have hd : delim ≠ [] := by rw [delim_eq]; simp
  intro ls
  induction ls with
  | nil =>
    intro _
    cases B with
    | nil => exact ⟨[], by decide⟩
    | cons m rest =>
      refine ⟨Split (joinLines (m :: rest)) delim, ?_⟩
      have h0 : Index ([] : Bytes) delim = none := by rw [delim_eq]; decide
      simp only [List.nil_append, joinLines]
      exact Split_append_of_Index [] delim _ hd (Index_delim_append _ [] h0)
  | cons l t ih =>
    intro hall
    obtain ⟨post, hpost⟩ := ih fun x hx => hall x (List.mem_cons_of_mem _ hx)
    refine ⟨post, ?_⟩
    have hl : Index l delim = none := hall l (List.mem_cons_self _ _)
    have e : joinLines (l :: t ++ [] :: B) = l ++ delim ++ joinLines (t ++ [] :: B) := by
      cases t <;> simp [joinLines]
    rw [e, Split_append_of_Index l delim _ hd (Index_delim_append _ l hl), hpost]
    rfl

theorem headerName_append (k v : Bytes) (hk : 58 ∉ k) : headerName (k ++ [58] ++ v) = k := by
  induction k with
  | nil => simp [headerName, List.takeWhile]
  | cons c t ih =>
    simp only [List.mem_cons, not_or] at hk
    have hc : ¬ c = 58 := fun e => hk.1 e.symm
    have := ih hk.2
    simp only [headerName, List.cons_append, List.append_assoc] at this ⊢
    simpa [List.takeWhile, hc] using this

theorem headerRawValue_append (k v : Bytes) (hk : 58 ∉ k) :
    headerRawValue (k ++ [58] ++ v) = v := by
  induction k with
  | nil => simp [headerRawValue, List.dropWhile]
  | cons c t ih =>
    simp only [List.mem_cons, not_or] at hk
    have hc : ¬ c = 58 := fun e => hk.1 e.symm
    have := ih hk.2
    simp only [headerRawValue, List.cons_append, List.append_assoc] at this ⊢
    simpa [List.dropWhile, hc] using this

/-- A buffer with more than one line is its first line, CR LF and the rest. -/
theorem Split_delim_cons (req first l : Bytes) (ln : List Bytes)
    (h : Split req delim = first :: l :: ln) :
    Index first delim = none ∧
      ∃ rest, req = first ++ delim ++ rest ∧ Split rest delim = l :: ln := by
  have hd : delim ≠ [] := by rw [delim_eq]; simp
  cases hI : Index req delim with
  | none =>
    rw [Split_of_Index_none req delim hI] at h
    simp at h
  | some k =>
    rw [Split_of_Index_some req delim hd k hI] at h
    simp only [List.cons.injEq] at h
    have hs := Index_some_split delim req k hI
    refine ⟨?_, req.drop (k + delim.length), ?_, h.2⟩
    · rw [← h.1]
      exact Index_take_none delim hd req k hI
    · rw [← h.1]
      exact hs

/-! ## Lemmas on the connection handler -/

/-- `readReq` returns the bytes delivered by its one `Read`. -/
theorem readReq_eq (c : Conn) :
    readReq c = (c.pending.take 4096,
      { c with pending := c.pending.drop 4096, events := c.events ++ [ConnEvent.read 4096] }) := by
  have hlen : (c.pending.take 4096).length ≤ 4096 := by
    rw [List.length_take]; exact Nat.min_le_left _ _
  simp only [readReq, Conn.Read, if_pos hlen]
  rw [List.take_left' rfl]

/-- The calls `handleConn` makes on the connection. -/
theorem handleConn_events {U : Type} (urlParse : Bytes → Except GoError U) (conn : Conn) :
    (handleConn urlParse conn).1.events =
      conn.events ++ [ConnEvent.read 4096] ++
        (match parseHTTPReq urlParse (conn.pending.take 4096) with
          | .error _ => []
          | .ok _ =>
            if (conn.writeResult msg).2 then
              [ConnEvent.write msg, ConnEvent.remoteAddr, ConnEvent.remoteAddr]
            else [ConnEvent.write msg, ConnEvent.remoteAddr]) ++ [ConnEvent.close] := by
  simp only [handleConn, readReq_eq]
  cases parseHTTPReq urlParse (conn.pending.take 4096) with
  | error p => simp [Conn.Close]
  | ok v =>
    by_cases hw : (conn.writeResult msg).2 = true
    · simp [Conn.Close, Conn.Write, Conn.RemoteAddr, hw]
    · simp [Conn.Close, Conn.Write, Conn.RemoteAddr, hw]

/-! ## Lemmas on the UTF-8 decoders -/

theorem IsSpace_RuneError : IsSpace RuneError = false := by decide

theorem IsSpace_ascii (c : Nat) (h : c < 0x80) : IsSpace c = asciiSpace c := by
  have h1 : c ≤ 0xFF := by omega
  have h2 : c ≠ 0x85 := by omega
  have h3 : c ≠ 0xA0 := by omega
  simp [IsSpace, asciiSpace, h1, h2, h3]

theorem DecodeRune_ascii (c : Nat) (rest : Bytes) (h : c < 0x80) :
    DecodeRune (c :: rest) = (c, 1) := by
  simp [DecodeRune, h]

/-- The width of a decoded rune is 1 when the byte after a non-ASCII first byte is not a
continuation byte. -/
theorem DecodeRune_width_one (s0 : Nat) (rest : Bytes) (h0 : 0x80 ≤ s0)
    (hr : ∀ h ∈ rest.head?, h < 0x80 ∨ 0xBF < h) :
    DecodeRune (s0 :: rest) = (RuneError, 1) := by
  have h1 : ¬ s0 < 0x80 := by omega
  match rest, hr with
  | [], _ =>
    simp only [DecodeRune, h1, if_false]
    split_ifs <;> rfl
  | [s1], hr =>
    have hs1 : s1 < 0x80 ∨ 0xBF < s1 := hr s1 (by simp)
    simp only [DecodeRune, h1, if_false]
    split_ifs <;> first | rfl | (exfalso; omega)
  | [s1, s2], hr =>
    have hs1 : s1 < 0x80 ∨ 0xBF < s1 := hr s1 (by simp)
    simp only [DecodeRune, h1, if_false]
    split_ifs <;> first | rfl | (exfalso; omega)
  | s1 :: s2 :: s3 :: t, hr =>
    have hs1 : s1 < 0x80 ∨ 0xBF < s1 := hr s1 (by simp)
    simp only [DecodeRune, h1, if_false]
    split_ifs <;> first | rfl | (exfalso; omega)

/-- The shape of a decoded rune: width 1 with an ASCII byte or `RuneError`, or a width
from 2 to 4 within the text, after a lead byte. -/
theorem DecodeRune_shape (s0 : Nat) (rest : Bytes) :
    ((DecodeRune (s0 :: rest)).2 = 1 ∧
        ((DecodeRune (s0 :: rest)).1 = s0 ∧ s0 < 0x80 ∨
          (DecodeRune (s0 :: rest)).1 = RuneError ∧ 0x80 ≤ s0)) ∨
      (2 ≤ (DecodeRune (s0 :: rest)).2 ∧ (DecodeRune (s0 :: rest)).2 ≤ rest.length + 1 ∧
        0xC2 ≤ s0) := by
  by_cases h1 : s0 < 0x80
  · left
    simp [DecodeRune, h1]
  · match rest with
    | [] =>
      left
      simp only [DecodeRune, h1, if_false]
      split_ifs <;> exact ⟨rfl, Or.inr ⟨rfl, by omega⟩⟩
    | [s1] =>
      simp only [DecodeRune, h1, if_false]
      split_ifs <;>
        first
        | exact Or.inl ⟨rfl, Or.inr ⟨rfl, by omega⟩⟩
        | exact Or.inr ⟨by simp, by simp, by omega⟩
    | [s1, s2] =>
      simp only [DecodeRune, h1, if_false]
      split_ifs <;>
        first
        | exact Or.inl ⟨rfl, Or.inr ⟨rfl, by omega⟩⟩
        | exact Or.inr ⟨by simp, by simp, by omega⟩
    | s1 :: s2 :: s3 :: t =>
      simp only [DecodeRune, h1, if_false]
      split_ifs <;>
        first
        | exact Or.inl ⟨rfl, Or.inr ⟨rfl, by omega⟩⟩
        | exact Or.inr ⟨by simp, by simp, by omega⟩

/-- A prefix of a text starts with the first rune of the text or with `RuneError`. -/
theorem DecodeRune_of_append (q : Bytes) :
    ∀ p : Bytes, p ≠ [] →
      (DecodeRune p).1 = (DecodeRune (p ++ q)).1 ∨ (DecodeRune p).1 = RuneError := by
  intro p hp
  match p, hp with
  | [a], _ =>
    by_cases h1 : a < 0x80
    · left; simp [DecodeRune, h1]
    · right
      simp only [DecodeRune, h1, if_false]
      split_ifs <;> rfl
  | [a, b], _ =>
    by_cases h2 : a < 0xE0
    · left; simp [DecodeRune, h2]
    · right
      have h1 : ¬ a < 0x80 := by omega
      have h3 : ¬ a < 0xC2 := by omega
      simp only [DecodeRune, h1, h2, h3, if_false]
      split_ifs <;> rfl
  | [a, b, c], _ =>
    by_cases h2 : a < 0xF0
    · left; simp [DecodeRune, h2]
    · right
      have h1 : ¬ a < 0x80 := by omega
      have h3 : ¬ a < 0xC2 := by omega
      have h4 : ¬ a < 0xE0 := by omega
      simp only [DecodeRune, h1, h2, h3, h4, if_false]
      split_ifs <;> rfl
  | a :: b :: c :: d :: t, _ =>
    left; simp [DecodeRune]

/-- A rune that fills a text of two bytes or more is read the same with more text behind. -/
theorem DecodeRune_append_full (z : Bytes) :
    ∀ y : Bytes, (DecodeRune y).2 = y.length → 2 ≤ y.length →
      DecodeRune (y ++ z) = DecodeRune y := by
  intro y hw hl
  match y, hw, hl with
  | [a, b], hw, _ =>
    by_cases h2 : a < 0xE0
    · simp [DecodeRune, h2]
    · exfalso
      have h1 : ¬ a < 0x80 := by omega
      have h3 : ¬ a < 0xC2 := by omega
      simp only [DecodeRune, h1, h2, h3, if_false] at hw
      split_ifs at hw <;> simp at hw
  | [a, b, c], hw, _ =>
    by_cases h2 : a < 0xF0
    · simp [DecodeRune, h2]
    · exfalso
      have h1 : ¬ a < 0x80 := by omega
      have h3 : ¬ a < 0xC2 := by omega
      have h4 : ¬ a < 0xE0 := by omega
      simp only [DecodeRune, h1, h2, h3, h4, if_false] at hw
      split_ifs at hw <;> simp at hw
  | [a, b, c, d], _, _ => simp [DecodeRune]
  | a :: b :: c :: d :: e :: t, hw, _ =>
    exfalso
    rcases DecodeRune_shape a (b :: c :: d :: e :: t) with ⟨h, _⟩ | ⟨_, _, _⟩
    · rw [h] at hw; simp at hw
    · have h4 : (DecodeRune (a :: b :: c :: d :: e :: t)).2 ≤ 4 := by
        simp only [DecodeRune]
        split_ifs <;> simp
      rw [hw] at h4
      simp at h4

theorem lastRuneStart_lt (x : Bytes) (hx : x ≠ []) : lastRuneStart x < x.length := by
  have hpos : 0 < x.length := List.length_pos.mpr hx
  simp only [lastRuneStart]
  split_ifs <;> omega

/-- The shape of the last rune: one byte, ASCII or read as `RuneError`, or the two to four
bytes of a rune that starts with a lead byte. -/
theorem DecodeLastRune_shape (x : Bytes) (hx : x ≠ []) :
    ∃ pre y, x = pre ++ y ∧ y.length = (DecodeLastRune x).2 ∧
      ((∃ b, y = [b] ∧ ((DecodeLastRune x).1 = b ∧ b < 0x80 ∨
          (DecodeLastRune x).1 = RuneError ∧ 0x80 ≤ b)) ∨
        (2 ≤ y.length ∧ DecodeRune y = DecodeLastRune x ∧
          ∃ s0 rest, y = s0 :: rest ∧ 0xC2 ≤ s0)) := by
  obtain ⟨ini, l, hxe⟩ : ∃ ini l, x = ini ++ [l] :=
    ⟨x.dropLast, x.getLast hx, (List.dropLast_append_getLast hx).symm⟩
  have hlast : x.getLast? = some l := by rw [hxe]; simp
  by_cases hl : l < 0x80
  · refine ⟨ini, [l], hxe, ?_, Or.inl ⟨l, rfl, Or.inl ⟨?_, hl⟩⟩⟩ <;>
      simp [DecodeLastRune, hlast, hl]
  · by_cases hm : lastRuneStart x + (DecodeRune (x.drop (lastRuneStart x))).2 ≠ x.length
    · have hd : DecodeLastRune x = (RuneError, 1) := by
        simp only [DecodeLastRune, hlast, hl, if_false, if_pos hm]
      refine ⟨ini, [l], hxe, by rw [hd]; rfl, Or.inl ⟨l, rfl, Or.inr ⟨by rw [hd], by omega⟩⟩⟩
    · have hm2 : lastRuneStart x + (DecodeRune (x.drop (lastRuneStart x))).2 = x.length := by
        omega
      have hd : DecodeLastRune x = DecodeRune (x.drop (lastRuneStart x)) := by
        simp only [DecodeLastRune, hlast, hl, if_false, if_neg hm]
      have hlt := lastRuneStart_lt x hx
      have hylen : (x.drop (lastRuneStart x)).length
          = (DecodeRune (x.drop (lastRuneStart x))).2 := by
        rw [List.length_drop]; omega
      refine ⟨x.take (lastRuneStart x), x.drop (lastRuneStart x),
        (List.take_append_drop _ _).symm, by rw [hd]; exact hylen, ?_⟩
      cases hy : x.drop (lastRuneStart x) with
      | nil =>
        rw [hy] at hylen
        simp only [List.length_nil] at hylen
        rw [hy] at hm2
        omega
      | cons s0 rest =>
        rw [hy] at hylen
        rcases DecodeRune_shape s0 rest with ⟨hw, hv⟩ | ⟨hw, _, hs0⟩
        · left
          rw [hw] at hylen
          have hrest : rest = [] := by
            cases rest with
            | nil => rfl
            | cons a t => simp at hylen
          subst hrest
          have hs0l : s0 = l := by
            have e1 : x = x.take (lastRuneStart x) ++ [s0] := by
              rw [← hy]; exact (List.take_append_drop _ _).symm
            have e2 : x.getLast? = some s0 := by rw [e1]; simp
            rw [hlast] at e2
            exact (Option.some.inj e2).symm
          refine ⟨s0, rfl, ?_⟩
          rw [hd, hy]
          rcases hv with ⟨_, h80⟩ | ⟨hv1, h80⟩
          · omega
          · exact Or.inr ⟨hv1, h80⟩
        · right
          refine ⟨by rw [hylen]; exact hw, by rw [hd, hy], s0, rest, rfl, hs0⟩

theorem lastIndexGo_skip :
    ∀ (r : Bytes) (k : Nat), lastIndexGo k r = lastIndexGo 0 (r.drop k) := by
  intro r
  induction r with
  | nil => intro k; cases k <;> simp [lastIndexGo]
  | cons c cs ih =>
    intro k
    cases k with
    | zero => simp
    | succ k => simp only [lastIndexGo, List.drop_succ_cons]; exact ih k

theorem getD_append_length (pre l : Bytes) : (pre ++ l).getD pre.length 0 = l.headD 0 := by
  induction pre with
  | nil => cases l <;> rfl
  | cons a t ih => simpa using ih

theorem take_append_length_add (pre y t : Bytes) :
    (pre ++ (y ++ t)).take (pre.length + y.length) = pre ++ y := by
  rw [← List.append_assoc]
  exact List.take_left' (by simp)

/-- The scan of `TrimRightFunc` from the right end of `x`, with `tail` behind it: the index
found is the start of the last rune `y` that is not a space, and the slice
`s[0:i+wid]` of `TrimRightFunc` ends with that rune. -/
theorem lastIndexGo_spec :
    ∀ (n : Nat) (x tail : Bytes), x.length ≤ n →
      (∀ h ∈ tail.head?, h < 0x80 ∨ 0xBF < h) →
      ∀ i, lastIndexGo 0 x.reverse = some i →
        ∃ pre y z, x = pre ++ y ++ z ∧ i = pre.length ∧ y ≠ [] ∧
          IsSpace (DecodeLastRune (pre ++ y)).1 = false ∧
          (if 0x80 ≤ (x ++ tail).getD i 0 then
              (x ++ tail).take (i + (DecodeRune ((x ++ tail).drop i)).2)
            else (x ++ tail).take (i + 1)) = pre ++ y := by
  intro n
  induction n with
  | zero =>
    intro x tail hlen _ i hi
    have hx : x = [] := List.length_eq_zero.mp (Nat.le_zero.mp hlen)
    subst hx
    simp [lastIndexGo] at hi
  | succ n ih =>
    intro x tail hlen htail i hi
    by_cases hx : x = []
    · subst hx
      simp [lastIndexGo] at hi
    obtain ⟨pre, y, hxe, hylen, hshape⟩ := DecodeLastRune_shape x hx
    have hyne : y ≠ [] := by
      rcases hshape with ⟨b, hb, _⟩ | ⟨_, _, s0, rest, hy, _⟩
      · rw [hb]; simp
      · rw [hy]; simp
    have hypos : 0 < y.length := List.length_pos.mpr hyne
    obtain ⟨c, cs, hrc⟩ : ∃ c cs, x.reverse = c :: cs := by
      cases hr : x.reverse with
      | nil => exact absurd (List.reverse_eq_nil_iff.mp hr) hx
      | cons c cs => exact ⟨c, cs, rfl⟩
    have hback : (c :: cs).reverse = x := by rw [← hrc, List.reverse_reverse]
    rw [hrc] at hi
    simp only [lastIndexGo, hback] at hi
    split at hi
    · rename_i hsp
      rw [lastIndexGo_skip] at hi
      have hcs : cs.drop ((DecodeLastRune x).2 - 1) = pre.reverse := by
        have e1 : c :: cs = y.reverse ++ pre.reverse := by
          rw [← hrc, hxe, List.reverse_append]
        have e2 : (c :: cs).drop y.length = pre.reverse := by
          rw [e1]; exact List.drop_left' (by simp)
        have e3 : y.length = ((DecodeLastRune x).2 - 1) + 1 := by omega
        rw [e3, List.drop_succ_cons] at e2
        exact e2
      rw [hcs] at hi
      have hplen : pre.length ≤ n := by
        have := congrArg List.length hxe
        simp only [List.length_append] at this
        omega
      have htail2 : ∀ h ∈ (y ++ tail).head?, h < 0x80 ∨ 0xBF < h := by
        intro h hh
        rcases hshape with ⟨b, hb, hv⟩ | ⟨_, _, s0, rest, hy, hs0⟩
        · subst hb
          simp only [List.singleton_append, List.head?_cons, Option.mem_def,
            Option.some.injEq] at hh
          subst hh
          rcases hv with ⟨_, hlt⟩ | ⟨hre, _⟩
          · exact Or.inl hlt
          · rw [hre, IsSpace_RuneError] at hsp
            cases hsp
        · subst hy
          simp only [List.cons_append, List.head?_cons, Option.mem_def,
            Option.some.injEq] at hh
          subst hh
          right; omega
      obtain ⟨pre1, y1, z1, hpe, hi1, hy1, hns, hres⟩ := ih pre (y ++ tail) hplen htail2 i hi
      refine ⟨pre1, y1, z1 ++ y, ?_, hi1, hy1, hns, ?_⟩
      · rw [hxe, hpe]; simp
      · rw [hxe, List.append_assoc]
        exact hres
    · rename_i hsp
      have hi2 : i = pre.length := by
        simp only [Option.some.injEq] at hi
        have h1 := congrArg List.length hback
        have h2 := congrArg List.length hxe
        simp only [List.length_reverse, List.length_append] at h1 h2
        omega
      have hns : IsSpace (DecodeLastRune (pre ++ y)).1 = false := by
        rw [← hxe]; simpa using hsp
      refine ⟨pre, y, [], by simpa using hxe, hi2, hyne, hns, ?_⟩
      have hv : x ++ tail = pre ++ (y ++ tail) := by rw [hxe, List.append_assoc]
      rw [hv, hi2, getD_append_length, List.drop_left' rfl]
      rcases hshape with ⟨b, hb, _⟩ | ⟨hy2, hdy, s0, rest, hy, hs0⟩
      · subst hb
        by_cases hb80 : 0x80 ≤ b
        · have hw := DecodeRune_width_one b tail hb80 htail
          simp only [List.singleton_append, List.headD_cons, hb80, if_true, hw]
          simpa using take_append_length_add pre [b] tail
        · simp only [List.singleton_append, List.headD_cons, hb80, if_false]
          simpa using take_append_length_add pre [b] tail
      · have hfull : (DecodeRune y).2 = y.length := by rw [hdy]; exact hylen.symm
        have hext := DecodeRune_append_full tail y hfull hy2
        have h80 : 0x80 ≤ (y ++ tail).headD 0 := by
          rw [hy]; simp only [List.cons_append, List.headD_cons]; omega
        rw [if_pos h80, hext, hfull]
        exact take_append_length_add pre y tail

/-- `TrimRightFunc(v, unicode.IsSpace)` is empty or a prefix of `v` that ends with a rune
that is not a space. -/
theorem TrimRightSpace_spec (v : Bytes) :
    TrimRightSpace v = [] ∨
      ∃ z, v = TrimRightSpace v ++ z ∧ TrimRightSpace v ≠ [] ∧
        IsSpace (DecodeLastRune (TrimRightSpace v)).1 = false := by
  cases hI : lastIndexGo 0 v.reverse with
  | none => left; simp [TrimRightSpace, hI]
  | some i =>
    right
    obtain ⟨pre, y, z, hve, _, hy, hns, hres⟩ :=
      lastIndexGo_spec v.length v [] (Nat.le_refl _) (by simp) i hI
    have hT : TrimRightSpace v = pre ++ y := by
      simp only [TrimRightSpace, hI]
      simpa using hres
    rw [hT]
    exact ⟨z, hve, by simp [hy], hns⟩

/-! ## Lemmas on `TrimSpace` -/

theorem leadingSpace_of_append (p q : Bytes) (hp : p ≠ [])
    (h : leadingSpace (p ++ q) = false) : leadingSpace p = false := by
  have hne : p ++ q ≠ [] := by simp [hp]
  have h1 : IsSpace (DecodeRune (p ++ q)).1 = false := by
    cases hpq : p ++ q with
    | nil => exact absurd hpq hne
    | cons a t =>
      rw [hpq] at h
      simpa [leadingSpace] using h
  have h2 : IsSpace (DecodeRune p).1 = false := by
    rcases DecodeRune_of_append q p hp with e | e
    · rw [e]; exact h1
    · rw [e]; exact IsSpace_RuneError
  simp [leadingSpace, h2]

theorem TrimRightSpace_mem (v : Bytes) (x : Nat) (h : x ∈ TrimRightSpace v) : x ∈ v := by
  rcases TrimRightSpace_spec v with e | ⟨z, hz, _, _⟩
  · rw [e] at h; cases h
  · rw [hz]; exact List.mem_append_left _ h

theorem TrimRightSpace_noSpace (v : Bytes) (h : leadingSpace v = false) :
    leadingSpace (TrimRightSpace v) = false ∧ trailingSpace (TrimRightSpace v) = false := by
  rcases TrimRightSpace_spec v with e | ⟨z, hz, hne, hns⟩
  · rw [e]; exact ⟨rfl, rfl⟩
  · refine ⟨?_, by simp [trailingSpace, hns]⟩
    rw [hz] at h
    exact leadingSpace_of_append _ z hne h

theorem trimLeftGo_mem : ∀ (s : Bytes) (k : Nat) (x : Nat), x ∈ trimLeftGo k s → x ∈ s := by
  intro s
  induction s with
  | nil => intro k x h; cases k <;> simp [trimLeftGo] at h
  | cons c cs ih =>
    intro k x h
    cases k with
    | zero =>
      simp only [trimLeftGo] at h
      split at h
      · exact List.mem_cons_of_mem _ (ih _ x h)
      · exact h
    | succ k =>
      simp only [trimLeftGo] at h
      exact List.mem_cons_of_mem _ (ih k x h)

theorem trimLeftGo_noSpace : ∀ (s : Bytes) (k : Nat), leadingSpace (trimLeftGo k s) = false := by
  intro s
  induction s with
  | nil => intro k; cases k <;> rfl
  | cons c cs ih =>
    intro k
    cases k with
    | zero =>
      simp only [trimLeftGo]
      split
      · exact ih _
      · rename_i hsp
        simpa [leadingSpace] using hsp
    | succ k =>
      simp only [trimLeftGo]
      exact ih k

theorem trimStopGo_mem : ∀ (r : Bytes) (x : Nat), x ∈ trimStopGo r → x ∈ r := by
  intro r
  induction r with
  | nil => intro x h; simp [trimStopGo] at h
  | cons d ds ih =>
    intro x h
    simp only [trimStopGo] at h
    split at h
    · exact List.mem_reverse.mp (TrimRightSpace_mem _ x h)
    · split at h
      · exact List.mem_cons_of_mem _ (ih x h)
      · exact List.mem_reverse.mp h

theorem trimStopGo_noSpace :
    ∀ r : Bytes, leadingSpace r.reverse = false →
      leadingSpace (trimStopGo r) = false ∧ trailingSpace (trimStopGo r) = false := by
  intro r
  induction r with
  | nil => intro _; exact ⟨rfl, rfl⟩
  | cons d ds ih =>
    intro h
    simp only [trimStopGo]
    split
    · exact TrimRightSpace_noSpace _ h
    · rename_i h80
      split
      · apply ih
        by_cases hds : ds.reverse = []
        · rw [hds]; rfl
        · rw [List.reverse_cons] at h
          exact leadingSpace_of_append _ [d] hds h
      · rename_i hsp
        refine ⟨h, ?_⟩
        have hd : d < 0x80 := by omega
        have hl : (d :: ds).reverse.getLast? = some d := by simp
        have hdec : DecodeLastRune (d :: ds).reverse = (d, 1) := by
          simp only [DecodeLastRune, hl, hd, if_true]
        have : IsSpace d = false := by rw [IsSpace_ascii d hd]; simpa using hsp
        simp only [trailingSpace, hdec, this, Bool.and_false]

/-- Every byte of `TrimSpace(s)` is a byte of `s`. -/
theorem TrimSpace_mem : ∀ (s : Bytes) (x : Nat), x ∈ TrimSpace s → x ∈ s := by
  intro s
  induction s with
  | nil => intro x h; simp [TrimSpace] at h
  | cons c cs ih =>
    intro x h
    simp only [TrimSpace] at h
    split at h
    · exact trimLeftGo_mem _ 0 x (TrimRightSpace_mem _ x h)
    · split at h
      · exact List.mem_cons_of_mem _ (ih x h)
      · exact List.mem_reverse.mp (trimStopGo_mem _ x h)

/-- `TrimSpace(s)` neither starts nor ends with a white-space rune. -/
theorem TrimSpace_noSpace :
    ∀ s : Bytes, leadingSpace (TrimSpace s) = false ∧ trailingSpace (TrimSpace s) = false := by
  intro s
  induction s with
  | nil => exact ⟨rfl, rfl⟩
  | cons c cs ih =>
    simp only [TrimSpace]
    split
    · exact TrimRightSpace_noSpace _ (trimLeftGo_noSpace _ 0)
    · rename_i h80
      split
      · exact ih
      · rename_i hsp
        apply trimStopGo_noSpace
        rw [List.reverse_reverse]
        have hc : c < 0x80 := by omega
        have : IsSpace c = false := by rw [IsSpace_ascii c hc]; simpa using hsp
        simp [leadingSpace, DecodeRune_ascii c cs hc, this]

/-- The pieces of a split on one byte do not hold that byte. -/
theorem Split_byte_no_sep (b : Nat) : ∀ (s p : Bytes), p ∈ Split s [b] → b ∉ p := by
  intro s
  induction s with
  | nil =>
    intro p hp
    have : Split [] [b] = [[]] := Split_of_Index_none [] [b] (by simp [Index, List.isPrefixOf])
    rw [this] at hp
    simp only [List.mem_singleton] at hp
    rw [hp]; simp
  | cons c cs ih =>
    intro p hp
    by_cases hc : c = b
    · subst hc
      rw [Split_byte_cons_eq] at hp
      rcases List.mem_cons.mp hp with e | e
      · rw [e]; simp
      · exact ih p e
    · rw [Split_byte_cons_ne b c cs hc] at hp
      cases hS : Split cs [b] with
      | nil => exact absurd hS (Split_ne_nil cs [b])
      | cons q qs =>
        rw [hS] at hp ih
        simp only [List.headD_cons, List.tail_cons] at hp
        rcases List.mem_cons.mp hp with e | e
        · rw [e]
          have hq := ih q (List.mem_cons_self _ _)
          simp only [List.mem_cons, not_or]
          exact ⟨fun e2 => hc e2.symm, hq⟩
        · exact ih p (List.mem_cons_of_mem _ e)

theorem HeaderMap.mem_of_get (m : HeaderMap) (k : Bytes) (vs : List Bytes)
    (h : m.get k = some vs) : (k, vs) ∈ m := by
  simp only [HeaderMap.get, Option.map_eq_some'] at h
  obtain ⟨e, he, hv⟩ := h
  have h1 := List.mem_of_find?_eq_some he
  have h2 := List.find?_some he
  simp only [decide_eq_true_eq] at h2
  have : e = (k, vs) := by
    cases e with
    | mk a b =>
      simp only at h2 hv
      rw [h2, hv]
  rw [← this]
  exact h1

/-- A property of the pair of name and value list of every line holds for every entry of
the map built from the lines. -/
theorem headersOf_forall (P : Bytes × List Bytes → Prop) :
    ∀ (hs : List Bytes) (m : HeaderMap), (∀ e ∈ m, P e) →
      (∀ h ∈ hs, P (headerName h, headerValues h)) → ∀ e ∈ headersOf hs m, P e := by
  intro hs
  induction hs with
  | nil => intro m hm _ e he; exact hm e he
  | cons h t ih =>
    intro m hm hall e he
    have h2 := ih (m.set (headerName h) (headerValues h))
    simp only [headersOf, List.foldl_cons] at h2 he
    apply h2 _ (fun x hx => hall x (List.mem_cons_of_mem _ hx)) e he
    intro x hx
    simp only [HeaderMap.set, List.mem_cons, List.mem_filter] at hx
    rcases hx with e1 | e1
    · rw [e1]; exact hall h (List.mem_cons_self _ _)
    · exact hm x e1.1

theorem headerName_no_colon (h : Bytes) : 58 ∉ headerName h := by
  intro hmem
  have := List.mem_takeWhile_imp hmem
  simp at this

theorem headerValues_ne_nil (h : Bytes) : headerValues h ≠ [] := by
  simp only [headerValues, ne_eq, List.map_eq_nil_iff]
  exact Split_ne_nil _ _

theorem headerValues_trimmed (h v : Bytes) (hv : v ∈ headerValues h) :
    44 ∉ v ∧ leadingSpace v = false ∧ trailingSpace v = false := by
  simp only [headerValues, List.mem_map] at hv
  obtain ⟨p, hp, rfl⟩ := hv
  rw [bytes_comma] at hp
  have hno := Split_byte_no_sep 44 _ p hp
  exact ⟨fun hm => hno (TrimSpace_mem p 44 hm), (TrimSpace_noSpace p).1,
    (TrimSpace_noSpace p).2⟩

/-! ## The claims, continued -/

/-- C11: on a buffer whose request line has at least three space-separated fields, a second
field rejected by the URI parser or a third field rejected by `parseHTTPVer` makes
`parseHTTPReq` return an error and no Request, whatever the lines after the request line
are. -/
theorem C11_rejected_target_or_version {U : Type} (urlParse : Bytes → Except GoError U)
    (req first M T V : Bytes) (extra ln2 : List Bytes)
    (h1 : Split req delim = first :: ln2)
    (h2 : Split first (bytes " ") = M :: T :: V :: extra)
    (hbad : (∃ e, urlParse T = .error e) ∨ (parseHTTPVer V).2.2 = false) :
    ∃ e, parseHTTPReq urlParse req = .ok (none, some e) :=
  parseHTTPReq_rejected urlParse req first M T V extra ln2 h1 h2 hbad

/-- C11, at a request with a rejected target and at one with a rejected version, both
without an empty line and with a colon-less header line. -/
theorem C11_rejected_target_or_version_witness :
    (∃ e, parseHTTPReq urlParseOrigin (bytes "GET /%zz HTTP/1.1\r\nX-Bad-Header")
      = .ok (none, some e)) ∧
    (∃ e, parseHTTPReq urlParseOrigin (bytes "GET / HTTP/1\r\nX-Bad-Header")
      = .ok (none, some e)) :=
  ⟨C11_rejected_target_or_version urlParseOrigin (bytes "GET /%zz HTTP/1.1\r\nX-Bad-Header")
      (bytes "GET /%zz HTTP/1.1") (bytes "GET") (bytes "/%zz") (bytes "HTTP/1.1") []
      [bytes "X-Bad-Header"] (by decide) (by decide) (Or.inl ⟨"parse: target outside the origin-form instance", by decide⟩),
   C11_rejected_target_or_version urlParseOrigin (bytes "GET / HTTP/1\r\nX-Bad-Header")
      (bytes "GET / HTTP/1") (bytes "GET") (bytes "/") (bytes "HTTP/1") []
      [bytes "X-Bad-Header"] (by decide) (by decide) (Or.inr (by decide))⟩

/-- C12: when `parseHTTPReq` returns, exactly one of its two results is set. Either the
error is nil and the Request is non-nil, with `Method`, `URL` (non-nil), `Proto`, `ProtoMaj`,
`ProtoMin` and `Header` (a non-nil map) all taken from the message; or the error is non-nil
and the Request is nil. -/
theorem C12_request_or_error {U : Type} (urlParse : Bytes → Except GoError U) (req : Bytes)
    (r : Option (Request U)) (e : Option GoError)
    (h : parseHTTPReq urlParse req = .ok (r, e)) :
    (e = none ∧ ∃ q u m first M T V extra hs post,
      r = some q ∧ q.URL = some u ∧ q.Header = some m ∧
      Split req delim = first :: (hs ++ [] :: post) ∧ (∀ x ∈ hs, x ≠ []) ∧
      Split first (bytes " ") = M :: T :: V :: extra ∧
      q.Method = M ∧ urlParse T = .ok u ∧ q.Proto = V ∧
      parseHTTPVer V = (q.ProtoMaj, q.ProtoMin, true) ∧ parseHeaders hs = .ok m) ∨
    (r = none ∧ ∃ err, e = some err) := by
  rcases parseHTTPReq_cases urlParse req with ⟨p, hp⟩ | ⟨err, he⟩ |
    ⟨first, M, T, V, extra, hs, post, u, a, b, m, hS, hF, hu, hv, hne, hm, hrun⟩
  · rw [hp] at h; cases h
  · rw [he] at h
    cases h
    exact Or.inr ⟨rfl, err, rfl⟩
  · rw [hrun] at h
    cases h
    exact Or.inl ⟨rfl, _, u, m, first, M, T, V, extra, hs, post, rfl, rfl, rfl, hS, hne, hF,
      rfl, hu, rfl, hv, hm⟩

/-- C12, at a well-formed request and at a request with a rejected version. -/
theorem C12_request_or_error_witness :
    ((none : Option GoError) = none ∧ ∃ q u m first M T V extra hs post,
      some ({ Method := bytes "GET", URL := some { Path := bytes "/", RawQuery := [] },
              Proto := bytes "HTTP/1.1", ProtoMin := 1, ProtoMaj := 1,
              Header := some [(bytes "Host", [bytes "x"])] } : Request OriginURL) = some q ∧
      q.URL = some u ∧ q.Header = some m ∧
      Split (bytes "GET / HTTP/1.1\r\nHost: x\r\n\r\n") delim = first :: (hs ++ [] :: post) ∧
      (∀ x ∈ hs, x ≠ []) ∧
      Split first (bytes " ") = M :: T :: V :: extra ∧
      q.Method = M ∧ urlParseOrigin T = .ok u ∧ q.Proto = V ∧
      parseHTTPVer V = (q.ProtoMaj, q.ProtoMin, true) ∧ parseHeaders hs = .ok m) ∨
    ((some ({ Method := bytes "GET", URL := some { Path := bytes "/", RawQuery := [] },
              Proto := bytes "HTTP/1.1", ProtoMin := 1, ProtoMaj := 1,
              Header := some [(bytes "Host", [bytes "x"])] } : Request OriginURL)) = none ∧
      ∃ err, (none : Option GoError) = some err) :=
  C12_request_or_error urlParseOrigin (bytes "GET / HTTP/1.1\r\nHost: x\r\n\r\n") _ _
    (by decide)

/-- C13: when the name of a header line occurs again on no later line, `parseHeaders` maps
that name to the value list of this line, whatever the earlier lines with the same name
hold: of the lines that carry one name only the last decides the entry. -/
theorem C13_last_occurrence_wins (pre post : List Bytes) (h : Bytes)
    (hall : ∀ x ∈ pre ++ h :: post, 58 ∈ x)
    (hpost : ∀ x ∈ post, headerName x ≠ headerName h) :
    ∃ m, parseHeaders (pre ++ h :: post) = .ok m ∧
      m.get (headerName h) = some (headerValues h) :=
  ⟨_, parseHeaders_ok _ hall, headersOf_get_last pre post h [] hpost⟩

/-- C13, at the lines `A: 1`, `B: 2`, `A: 3`: the name `A` is mapped to `["3"]`. -/
theorem C13_last_occurrence_wins_witness :
    headerName (bytes "A: 3") = bytes "A" ∧ headerValues (bytes "A: 3") = [bytes "3"] ∧
    ∃ m, parseHeaders ([bytes "A: 1", bytes "B: 2"] ++ bytes "A: 3" :: []) = .ok m ∧
      m.get (headerName (bytes "A: 3")) = some (headerValues (bytes "A: 3")) :=
  ⟨by decide, by decide,
   C13_last_occurrence_wins [bytes "A: 1", bytes "B: 2"] [] (bytes "A: 3") (by decide)
    (by decide)⟩

/-- C14 (the code faults): when `parseHTTPReq` panics on the bytes read, `handleConn` makes
one `Read` and the deferred `Close` and no `Write`, and ends in that panic: the fixed
response is not written. -/
theorem C14_no_response_on_parse_fault {U : Type} (urlParse : Bytes → Except GoError U)
    (conn : Conn) (p : Panic)
    (h : parseHTTPReq urlParse (conn.pending.take 4096) = .error p) :
    (handleConn urlParse conn).1.events
        = conn.events ++ [ConnEvent.read 4096, ConnEvent.close] ∧
      (handleConn urlParse conn).2 = some p := by
  refine ⟨?_, ?_⟩
  · rw [handleConn_events, h]
    simp
  · simp only [handleConn, readReq_eq, h]

/-- C14, at a connection that delivers `GET / HTTP/1.1` without a line end. -/
theorem C14_no_response_on_parse_fault_witness :
    (handleConn urlParseOrigin
        { pending := bytes "GET / HTTP/1.1", writeResult := fun d => (d.length, false),
          events := [] }).1.events = [] ++ [ConnEvent.read 4096, ConnEvent.close] ∧
      (handleConn urlParseOrigin
        { pending := bytes "GET / HTTP/1.1", writeResult := fun d => (d.length, false),
          events := [] }).2 = some Panic.sliceBounds :=
  C14_no_response_on_parse_fault urlParseOrigin
    { pending := bytes "GET / HTTP/1.1", writeResult := fun d => (d.length, false),
      events := [] } Panic.sliceBounds (by decide)

/-- C15 (the code faults): a failed `Accept` ends the loop of `main`. Whatever the outcomes
`before` it and the outcomes `later` are, the loop ends in a fault at the failed `Accept` or
earlier, and handles none of the connections accepted later: the outcome is the same as if
no call of `Accept` followed. With nothing before it, the fault is the method call on the nil
connection. -/
theorem C15_failed_accept_ends_loop {U : Type} (urlParse : Bytes → Except GoError U)
    (later : List Accepted) :
    mainLoop urlParse (Accepted.failed :: later) = ([], some Fault.nilDereference) ∧
    ∀ before : List Accepted,
      mainLoop urlParse (before ++ Accepted.failed :: later)
          = mainLoop urlParse (before ++ [Accepted.failed]) ∧
        (mainLoop urlParse (before ++ Accepted.failed :: later)).2 ≠ none := by
  refine ⟨rfl, ?_⟩
  intro before
  induction before with
  | nil => exact ⟨rfl, by simp [mainLoop]⟩
  | cons a t ih =>
    cases a with
    | failed => exact ⟨rfl, by simp [mainLoop]⟩
    | conn c =>
      simp only [List.cons_append, mainLoop]
      cases hh : handleConn urlParse c.RemoteAddr with
      | mk c1 o =>
        cases o with
        | some p => simp
        | none =>
          have h1 := ih.1
          have h2 := ih.2
          simp only [List.append_eq] at h1 h2 ⊢
          exact ⟨by rw [h1], h2⟩

/-- C16: on every connection and for every outcome of the read, the parse and the write,
`handleConn` makes exactly one `Read`, at most one `Write` (of the fixed response) and then
exactly one `Close`, which is its last call on the connection. -/
theorem C16_one_read_one_close {U : Type} (urlParse : Bytes → Except GoError U) (conn : Conn) :
    ∃ mid, (handleConn urlParse conn).1.events
        = conn.events ++ [ConnEvent.read 4096] ++ mid ++ [ConnEvent.close] ∧
      (mid = [] ∨ mid = [ConnEvent.write msg, ConnEvent.remoteAddr] ∨
        mid = [ConnEvent.write msg, ConnEvent.remoteAddr, ConnEvent.remoteAddr]) := by
  rw [handleConn_events]
  cases parseHTTPReq urlParse (conn.pending.take 4096) with
  | error p => exact ⟨[], rfl, Or.inl rfl⟩
  | ok v =>
    by_cases hw : (conn.writeResult msg).2 = true
    · exact ⟨_, by simp only [hw, if_true], Or.inr (Or.inr rfl)⟩
    · exact ⟨_, by simp only [hw]; rfl, Or.inr (Or.inl rfl)⟩

/-- C17: `parseHeaders` cuts each line at its first colon only. For lines `k:v` whose `k`
holds no colon, the key is `k` as written and the value list is made from all of `v`, the
text after that colon, colons included: `v` is trimmed, split on commas, and each fragment
is trimmed. -/
theorem C17_cut_at_first_colon (kvs : List (Bytes × Bytes)) (hk : ∀ kv ∈ kvs, 58 ∉ kv.1) :
    parseHeaders (kvs.map fun kv => kv.1 ++ [58] ++ kv.2) =
      .ok (kvs.foldl (fun m kv =>
        m.set kv.1 ((Split (TrimSpace kv.2) (bytes ",")).map TrimSpace)) []) := by
  have hall : ∀ x ∈ kvs.map (fun kv => kv.1 ++ [58] ++ kv.2), 58 ∈ x := by
    intro x hx
    obtain ⟨kv, _, rfl⟩ := List.mem_map.mp hx
    simp
  rw [parseHeaders_ok _ hall]
  congr 1
  have key : ∀ (l : List (Bytes × Bytes)) (m : HeaderMap), (∀ kv ∈ l, 58 ∉ kv.1) →
      headersOf (l.map fun kv => kv.1 ++ [58] ++ kv.2) m =
        l.foldl (fun m kv =>
          m.set kv.1 ((Split (TrimSpace kv.2) (bytes ",")).map TrimSpace)) m := by
    intro l
    induction l with
    | nil => intro m _; rfl
    | cons kv t ih =>
      intro m hl
      have h1 : 58 ∉ kv.1 := hl kv (List.mem_cons_self _ _)
      have h2 := ih (m.set kv.1 ((Split (TrimSpace kv.2) (bytes ",")).map TrimSpace))
        fun x hx => hl x (List.mem_cons_of_mem _ hx)
      simp only [headersOf, List.map_cons, List.foldl_cons] at h2 ⊢
      rw [headerName_append kv.1 kv.2 h1]
      simp only [headerValues]
      rw [headerRawValue_append kv.1 kv.2 h1]
      exact h2
  exact key kvs [] hk

/-- C17, at the line `Host: localhost:8080`: the key is `Host`, the value list
`["localhost:8080"]`. -/
theorem C17_cut_at_first_colon_witness :
    [bytes "Host: localhost:8080"]
      = [(bytes "Host", bytes " localhost:8080")].map (fun kv => kv.1 ++ [58] ++ kv.2) ∧
    parseHeaders ([(bytes "Host", bytes " localhost:8080")].map
        fun kv => kv.1 ++ [58] ++ kv.2) =
      .ok [(bytes "Host", [bytes "localhost:8080"])] :=
  ⟨by decide, C17_cut_at_first_colon [(bytes "Host", bytes " localhost:8080")] (by decide)⟩

/-- C18: the header section ends at the first empty line. For every request line `R`, every
list `H` of non-empty lines and every two lists of lines `B1` and `B2`, `parseHTTPReq` has
the same outcome on the buffer `R`, `H`, empty line, `B1` as on the buffer `R`, `H`, empty
line, `B2`, the lines being joined by CR LF. -/
theorem C18_after_first_empty_line {U : Type} (urlParse : Bytes → Except GoError U)
    (R : Bytes) (H B1 B2 : List Bytes)
    (hR : Index R delim = none) (hH : ∀ h ∈ H, h ≠ [] ∧ Index h delim = none) :
    parseHTTPReq urlParse (joinLines (R :: H ++ [] :: B1)) =
      parseHTTPReq urlParse (joinLines (R :: H ++ [] :: B2)) := by
  have hall : ∀ l ∈ R :: H, Index l delim = none := by
    intro l hl
    rcases List.mem_cons.mp hl with e | e
    · rw [e]; exact hR
    · exact (hH l e).2
  obtain ⟨p1, h1⟩ := Split_joinLines B1 (R :: H) hall
  obtain ⟨p2, h2⟩ := Split_joinLines B2 (R :: H) hall
  exact parseHTTPReq_lines_indep urlParse _ _ R H p1 p2 h1 h2 fun h hh => (hH h hh).1

/-- C18, at two buffers that differ after the empty line: one goes on with a line that looks
like a header and a line without a colon, the other ends there. -/
theorem C18_after_first_empty_line_witness :
    joinLines (bytes "GET / HTTP/1.1" :: [bytes "Host: x"] ++
        [] :: [bytes "Evil: 1", bytes "no colon"])
      = bytes "GET / HTTP/1.1\r\nHost: x\r\n\r\nEvil: 1\r\nno colon" ∧
    parseHTTPReq urlParseOrigin (joinLines (bytes "GET / HTTP/1.1" :: [bytes "Host: x"] ++
        [] :: [bytes "Evil: 1", bytes "no colon"])) =
      parseHTTPReq urlParseOrigin (joinLines (bytes "GET / HTTP/1.1" :: [bytes "Host: x"] ++
        [] :: [])) :=
  ⟨by decide,
   C18_after_first_empty_line urlParseOrigin (bytes "GET / HTTP/1.1") [bytes "Host: x"]
    [bytes "Evil: 1", bytes "no colon"] [] (by decide) (by decide)⟩

/-- C19: for header lines that all contain a colon, every key of the map returned by
`parseHeaders` holds no colon and is mapped to a non-empty list, and every value of every
list holds no comma and neither starts nor ends with white space; a line whose value is
empty after trimming, if it is the last line with its name, maps its name to the
one-element list `[""]`. -/
theorem C19_header_map_invariants (hs : List Bytes) (hall : ∀ h ∈ hs, 58 ∈ h) :
    ∃ m, parseHeaders hs = .ok m ∧
      (∀ k vs, m.get k = some vs →
        58 ∉ k ∧ vs ≠ [] ∧
          ∀ v ∈ vs, 44 ∉ v ∧ leadingSpace v = false ∧ trailingSpace v = false) ∧
      (∀ pre h post, hs = pre ++ h :: post → (∀ x ∈ post, headerName x ≠ headerName h) →
        TrimSpace (headerRawValue h) = [] → m.get (headerName h) = some [[]]) := by
  refine ⟨headersOf hs [], parseHeaders_ok hs hall, ?_, ?_⟩
  · intro k vs hget
    have hmem := HeaderMap.mem_of_get _ k vs hget
    exact headersOf_forall
      (fun e => 58 ∉ e.1 ∧ e.2 ≠ [] ∧
        ∀ v ∈ e.2, 44 ∉ v ∧ leadingSpace v = false ∧ trailingSpace v = false)
      hs [] (fun e he => by cases he)
      (fun h _ => ⟨headerName_no_colon h, headerValues_ne_nil h, headerValues_trimmed h⟩)
      (k, vs) hmem
  · intro pre h post e hpost hempty
    rw [e, headersOf_get_last pre post h [] hpost]
    simp only [headerValues, hempty]
    decide

/-- C19, at the lines `Accept:  a , b ` and `X-Empty:`. -/
theorem C19_header_map_invariants_witness :
    parseHeaders [bytes "Accept:  a , b ", bytes "X-Empty:"]
      = .ok [(bytes "X-Empty", [[]]), (bytes "Accept", [bytes "a", bytes "b"])] ∧
    ∃ m, parseHeaders [bytes "Accept:  a , b ", bytes "X-Empty:"] = .ok m ∧
      (∀ k vs, m.get k = some vs →
        58 ∉ k ∧ vs ≠ [] ∧
          ∀ v ∈ vs, 44 ∉ v ∧ leadingSpace v = false ∧ trailingSpace v = false) ∧
      (∀ pre h post, [bytes "Accept:  a , b ", bytes "X-Empty:"] = pre ++ h :: post →
        (∀ x ∈ post, headerName x ≠ headerName h) →
        TrimSpace (headerRawValue h) = [] → m.get (headerName h) = some [[]]) :=
  ⟨by decide, C19_header_map_invariants [bytes "Accept:  a , b ", bytes "X-Empty:"]
    (by decide)⟩

/-- C20: fields of the request line beyond the third are ignored. When `parseHTTPReq`
returns a Request for a buffer, it returns the same Request for the buffer in which a space
and any text without CR LF are appended to the request line. -/
theorem C20_extra_fields_ignored {U : Type} (urlParse : Bytes → Except GoError U)
    (req x : Bytes) (r : Request U)
    (h : parseHTTPReq urlParse req = .ok (some r, none)) (hx : Index x delim = none) :
    parseHTTPReq urlParse ((Split req delim).headD [] ++ [32] ++ x ++
      req.drop ((Split req delim).headD []).length) = .ok (some r, none) := by
  have hd : delim ≠ [] := by rw [delim_eq]; simp
  rcases parseHTTPReq_cases urlParse req with ⟨p, hp⟩ | ⟨err, he⟩ |
    ⟨first, M, T, V, extra, hs, post, u, a, b, m, hS, hF, hu, hv, hne, hm, hrun⟩
  · rw [hp] at h; cases h
  · rw [he] at h; cases h
  · rw [hrun] at h
    cases h
    obtain ⟨l, ln, hl⟩ : ∃ l ln, hs ++ [] :: post = l :: ln := by
      cases hs with
      | nil => exact ⟨_, _, rfl⟩
      | cons y t => exact ⟨_, _, rfl⟩
    have hS2 : Split req delim = first :: l :: ln := by rw [hS, hl]
    obtain ⟨hfirst, rest, hreq, hrest⟩ := Split_delim_cons req first l ln hS2
    have hdrop : req.drop first.length = delim ++ rest := by
      rw [hreq, List.append_assoc]
      exact List.drop_left' rfl
    have hline : Index (first ++ [32] ++ x) delim = none :=
      Index_delim_space_append x hx first hfirst
    have hnew : Split (first ++ [32] ++ x ++ (delim ++ rest)) delim
        = (first ++ [32] ++ x) :: (hs ++ [] :: post) := by
      rw [← List.append_assoc,
        Split_append_of_Index (first ++ [32] ++ x) delim rest hd
          (Index_delim_append rest _ hline), hrest, hl]
    have hfields : Split (first ++ [32] ++ x) (bytes " ")
        = M :: T :: V :: (extra ++ Split x (bytes " ")) := by
      rw [bytes_space] at hF ⊢
      rw [Split_byte_append 32 x first, hF]
      rfl
    rw [hS, List.headD_cons, hdrop,
      parseHTTPReq_of_lines urlParse _ (first ++ [32] ++ x) M T V _ hs post u a b hnew hfields
        hu hv hne, hm]

/-- C20, at the request line `GET / HTTP/1.1` with ` and two more` appended: a request line
with six fields is accepted. -/
theorem C20_extra_fields_ignored_witness :
    (Split (bytes "GET / HTTP/1.1\r\nHost: x\r\n\r\n") delim).headD [] ++ [32]
        ++ bytes "and two more"
        ++ (bytes "GET / HTTP/1.1\r\nHost: x\r\n\r\n").drop
            ((Split (bytes "GET / HTTP/1.1\r\nHost: x\r\n\r\n") delim).headD []).length
      = bytes "GET / HTTP/1.1 and two more\r\nHost: x\r\n\r\n" ∧
    parseHTTPReq urlParseOrigin
        ((Split (bytes "GET / HTTP/1.1\r\nHost: x\r\n\r\n") delim).headD [] ++ [32]
          ++ bytes "and two more"
          ++ (bytes "GET / HTTP/1.1\r\nHost: x\r\n\r\n").drop
            ((Split (bytes "GET / HTTP/1.1\r\nHost: x\r\n\r\n") delim).headD []).length) =
      .ok (some { Method := bytes "GET", URL := some { Path := bytes "/", RawQuery := [] },
                  Proto := bytes "HTTP/1.1", ProtoMin := 1, ProtoMaj := 1,
                  Header := some [(bytes "Host", [bytes "x"])] }, none) :=
  ⟨by decide,
   C20_extra_fields_ignored urlParseOrigin (bytes "GET / HTTP/1.1\r\nHost: x\r\n\r\n")
    (bytes "and two more") _ (by decide) (by decide)⟩

end SServer
